import Mathlib

/-!
Verification of the channel-dependency grouping subsystem of mmrazor
(`src/mmrazor/structures/graph/channel_modules.py`).

The Python code is a heap of mutually referencing objects
(`ChannelElement` ↔ `BaseChannelGroup`, `ChannelTensor`).  We embed it as an
arena: elements and groups are addressed by stable integer identifiers inside
one `State`; a `ChannelTensor` is the list of its element ids (its element
list never changes after construction).  Python's insertion-ordered `dict`
`channel_elems : Dict[int, List[ChannelElement]]` is an association list kept
in insertion order.  Python exceptions (assert / KeyError / ValueError /
AttributeError) are modelled by `Except String`; since a raising Python method
leaves all mutations made before the raise in place, every operation returns
`Except String α × State` where the second component is the heap at the moment
of return or raise.
-/

/-- Python insertion-ordered dict from bucket key to list of element ids. -/
abbrev Dict := List (Int × List Nat)

/-- Python `d[k]` lookup (first entry with the key). -/
def dLookup : Dict → Int → Option (List Nat)
  | [], _ => none
  | p :: d, k => if p.1 = k then some p.2 else dLookup d k

/-- Python `list(d.keys())`, in insertion order. -/
def dKeys (d : Dict) : List Int :=
  d.map Prod.fst

/-- Python `if k not in d: d[k] = []` followed by `d[k].append(e)`:
updates the entry in place if the key exists, else appends a new entry at the
end (insertion order). -/
def dAppend : Dict → Int → Nat → Dict
  | [], k, e => [(k, [e])]
  | p :: d, k, e => if p.1 = k then (p.1, p.2 ++ [e]) :: d else p :: dAppend d k e

/-- Overwrite the bucket list of an existing key in place (models mutating the
list object stored at that key); appends if the key is absent. -/
def dSet : Dict → Int → List Nat → Dict
  | [], k, b => [(k, b)]
  | p :: d, k, b => if p.1 = k then (k, b) :: d else p :: dSet d k b

/-- Python `d.pop(k)`.  Call sites in the source only pop keys that are
present, so the absent case (Python KeyError) is modelled as the identity. -/
def dPop : Dict → Int → Dict
  | [], _ => []
  | p :: d, k => if p.1 = k then d else p :: dPop d k

/-- Source `class ChannelElement` (channel_modules.py:207).  `group = None`
and `index_in_group = -1` mean it is owned by no group. -/
structure ChannelElement where
  index_in_channel_tensor : Nat
  group : Option Nat
  index_in_group : Int
deriving Repr, DecidableEq

/-- Source `class BaseChannelGroup` (channel_modules.py:67), field
`channel_elems`.  The `input_related`/`output_related` lists of `BaseChannel`
descriptors are never read or written by any operation modelled here and are
omitted. -/
structure BaseChannelGroup where
  channel_elems : Dict
deriving Repr, DecidableEq

/-- The arena: all elements and all groups of all tensors. -/
structure State where
  elems : List ChannelElement
  groups : List BaseChannelGroup
deriving Repr, DecidableEq

def emptyState : State := { elems := [], groups := [] }

def getE (s : State) (e : Nat) : Option ChannelElement :=
  s.elems[e]?

def getG (s : State) (g : Nat) : Option BaseChannelGroup :=
  s.groups[g]?

def setE (s : State) (e : Nat) (v : ChannelElement) : State :=
  { s with elems := s.elems.set e v }

/-- Replace group `g`'s dict. -/
def modG (s : State) (g : Nat) (d : Dict) : State :=
  { s with groups := s.groups.set g ⟨d⟩ }

/-- Bucket `k` of group `g` (Python `group.channel_elems[k]`). -/
def bucketAt (s : State) (g : Nat) (k : Int) : Option (List Nat) :=
  match getG s g with
  | some gr => dLookup gr.channel_elems k
  | none => none

/-- The (group, index_in_group) back-reference of an element, if owned. -/
def elemBackref (s : State) (e : Nat) : Option (Nat × Int) :=
  match getE s e with
  | some el => el.group.map (fun g => (g, el.index_in_group))
  | none => none

/-- Is `e` a member of bucket `k` of group `g`? -/
def memBucketB (s : State) (g : Nat) (k : Int) (e : Nat) : Bool :=
  match bucketAt s g k with
  | some b => b.contains e
  | none => false

/-- Source `ChannelElement._register_group` (channel_modules.py:229). -/
def register_group (s : State) (e : Nat) (g : Nat) (index : Int) : State :=
  match getE s e with
  | some el => setE s e { el with group := some g, index_in_group := index }
  | none => s

/-- Source `ChannelElement._clean_group_info` (channel_modules.py:234). -/
def clean_group_info (s : State) (e : Nat) : State :=
  match getE s e with
  | some el => setE s e { el with group := none, index_in_group := -1 }
  | none => s

/-- Python `list.remove(x)`: drop the first occurrence, ValueError if absent. -/
def listRemove (b : List Nat) (x : Nat) : Except String (List Nat) :=
  if x ∈ b then .ok (b.erase x) else .error "ValueError: x not in list"

/-- Source `BaseChannelGroup._clean_channel_info` (channel_modules.py:128):
`self[index].remove(channel_elem)`. -/
def clean_channel_info (s : State) (g : Nat) (e : Nat) (index : Int) :
    Except String Unit × State :=
  match getG s g with
  | none => (.error "invalid group id", s)
  | some gr =>
    match dLookup gr.channel_elems index with
    | none => (.error "KeyError", s)
    | some b =>
      match listRemove b e with
      | .error m => (.error m, s)
      | .ok b' => (.ok (), modG s g (dSet gr.channel_elems index b'))

/-- Source `ChannelElement.remove_from_group` (channel_modules.py:222).
`self.group._clean_channel_info(self, self.index_in_group)` raises
AttributeError when `self.group` is `None`. -/
def remove_from_group (s : State) (e : Nat) : Except String Unit × State :=
  match getE s e with
  | none => (.error "invalid elem id", s)
  | some el =>
    match el.group with
    | none => (.error "AttributeError: NoneType has no _clean_channel_info", s)
    | some g =>
      match clean_channel_info s g e el.index_in_group with
      | (.ok _, s') => (.ok (), clean_group_info s' e)
      | (.error m, s') => (.error m, s')

/-- Source `BaseChannelGroup.add_channel_elem` (channel_modules.py:82) with
`_add_channel_info` (channel_modules.py:132) inlined in source order: first
the assert `channel_elem.group is not self` and the append into bucket
`index`, then the removal from the old group (if any), then
`_register_group`. -/
def add_channel_elem (s : State) (g : Nat) (e : Nat) (index : Int) :
    Except String Unit × State :=
  match getE s e, getG s g with
  | some el, some gr =>
    if el.group = some g then
      (.error "AssertionError: channel_elem.group is not self", s)
    else
      let s1 := modG s g (dAppend gr.channel_elems index e)
      match el.group with
      | some _ =>
        match remove_from_group s1 e with
        | (.ok _, s2) => (.ok (), register_group s2 e g index)
        | (.error m, s2) => (.error m, s2)
      | none => (.ok (), register_group s1 e g index)
  | _, _ => (.error "invalid id", s)

/-- Python `for channel_elem in copy.copy(bucket): target.add_channel_elem
(channel_elem, j)` — the element-moving loop shared by `union_two_groups` and
`_split_a_new_group`. -/
def addAll (g : Nat) (j : Int) : State → List Nat → Except String Unit × State
  | s, [] => (.ok (), s)
  | s, e :: rest =>
    match add_channel_elem s g e j with
    | (.ok _, s') => addAll g j s' rest
    | (.error m, s') => (.error m, s')

/-- Loop body of `union_two_groups`: `for i in group1: for channel_elem in
copy.copy(group2[i]): group1.add_channel_elem(channel_elem, i)`. -/
def unionLoop (g1 g2 : Nat) : State → List Int → Except String Unit × State
  | s, [] => (.ok (), s)
  | s, i :: rest =>
    match bucketAt s g2 i with
    | none => (.error "KeyError", s)
    | some b =>
      match addAll g1 i s b with
      | (.ok _, s') => unionLoop g1 g2 s' rest
      | (.error m, s') => (.error m, s')

/-- Source `BaseChannelGroup.union_two_groups` (channel_modules.py:101). -/
def union_two_groups (s : State) (g1 g2 : Nat) : Except String Nat × State :=
  if g1 = g2 then (.ok g1, s)
  else
    match getG s g1, getG s g2 with
    | some gr1, some gr2 =>
      if gr1.channel_elems.length = gr2.channel_elems.length then
        match unionLoop g1 g2 s (dKeys gr1.channel_elems) with
        | (.ok _, s') => (.ok g1, s')
        | (.error m, s') => (.error m, s')
      else (.error "AssertionError: len(group1) == len(group2)", s)
    | _, _ => (.error "invalid group id", s)

/-- Source `BaseChannelGroup.union_groups` (channel_modules.py:91):
left fold of `union_two_groups`, `assert len(groups) > 1`. -/
def unionGroupsGo : State → Nat → List Nat → Except String Nat × State
  | s, acc, [] => (.ok acc, s)
  | s, acc, g :: rest =>
    match union_two_groups s acc g with
    | (.ok acc', s') => unionGroupsGo s' acc' rest
    | (.error m, s') => (.error m, s')

def union_groups (s : State) (gs : List Nat) : Except String Nat × State :=
  match gs with
  | g0 :: g1 :: rest => unionGroupsGo s g0 (g1 :: rest)
  | _ => (.error "AssertionError: len(groups) > 1", s)

/-- Loop body of `_split_a_new_group` (channel_modules.py:139): for each `i`
in `indexes`, move a copy of bucket `i` into the new group at key `j`, pop
key `i`, increment `j`. -/
def splitMoveLoop (g ng : Nat) : State → List Int → Int → Except String Unit × State
  | s, [], _ => (.ok (), s)
  | s, i :: rest, j =>
    match bucketAt s g i with
    | none => (.error "KeyError", s)
    | some b =>
      match addAll ng j s b with
      | (.ok _, s') =>
        match getG s' g with
        | none => (.error "invalid group id", s')
        | some gr => splitMoveLoop g ng (modG s' g (dPop gr.channel_elems i)) rest (j + 1)
      | (.error m, s') => (.error m, s')

/-- Inner loop of `_reindex` (channel_modules.py:151), branch `j < i`:
`if channel_elem.group is not None: channel_elem.remove_from_group()` then
`self.add_channel_elem(channel_elem, j)`, over a copy of bucket `i`. -/
def reindexMove (g : Nat) (j : Int) : State → List Nat → Except String Unit × State
  | s, [] => (.ok (), s)
  | s, e :: rest =>
    match getE s e with
    | none => (.error "invalid elem id", s)
    | some el =>
      match (if el.group.isSome then remove_from_group s e else (.ok (), s)) with
      | (.error m, s') => (.error m, s')
      | (.ok _, s') =>
        match add_channel_elem s' g e j with
        | (.ok _, s'') => reindexMove g j s'' rest
        | (.error m, s'') => (.error m, s'')

/-- Source `BaseChannelGroup._reindex` (channel_modules.py:151): iterate over
a snapshot of the keys (`copy.copy(self.channel_elems)`), pop empty buckets,
move bucket `i` down to `j` when `j < i`, leave it when `j == i` (the source
does not increment `j` in that branch), raise when `j > i`. -/
def reindexLoop (g : Nat) : State → List Int → Int → Except String Unit × State
  | s, [], _ => (.ok (), s)
  | s, i :: rest, j =>
    match bucketAt s g i with
    | none => (.error "KeyError", s)
    | some b =>
      if b.length = 0 then
        match getG s g with
        | none => (.error "invalid group id", s)
        | some gr => reindexLoop g (modG s g (dPop gr.channel_elems i)) rest j
      else if j < i then
        match reindexMove g j s b with
        | (.error m, s') => (.error m, s')
        | (.ok _, s') =>
          match getG s' g with
          | none => (.error "invalid group id", s')
          | some gr => reindexLoop g (modG s' g (dPop gr.channel_elems i)) rest (j + 1)
      else if j = i then reindexLoop g s rest j
      else (.error "Exception: reindex out of order", s)

def reindexGroup (s : State) (g : Nat) : Except String Unit × State :=
  match getG s g with
  | none => (.error "invalid group id", s)
  | some gr => reindexLoop g s (dKeys gr.channel_elems) 0

/-- Source `BaseChannelGroup._split_a_new_group` (channel_modules.py:139):
create a fresh group, move the buckets listed in `indexes` into it re-keyed
from 0, then `_reindex` the source group.  Returns the new group id. -/
def split_a_new_group (s : State) (g : Nat) (indexes : List Int) :
    Except String Nat × State :=
  let ng := s.groups.length
  let s0 : State := { s with groups := s.groups ++ [⟨[]⟩] }
  match splitMoveLoop g ng s0 indexes 0 with
  | (.error m, s') => (.error m, s')
  | (.ok _, s') =>
    match reindexGroup s' g with
    | (.ok _, s'') => (.ok ng, s'')
    | (.error m, s'') => (.error m, s'')

/-- Loop of `split_group` (channel_modules.py:121): one
`_split_a_new_group(list(range(0, num)))` per entry of `nums`. -/
def splitGroupLoop (g : Nat) : State → List Nat → Except String (List Nat) × State
  | s, [] => (.ok [], s)
  | s, num :: rest =>
    match split_a_new_group s g ((List.range num).map Int.ofNat) with
    | (.error m, s') => (.error m, s')
    | (.ok ng, s') =>
      match splitGroupLoop g s' rest with
      | (.ok ngs, s'') => (.ok (ng :: ngs), s'')
      | (.error m, s'') => (.error m, s'')

/-- Source `BaseChannelGroup.split_group` (channel_modules.py:114).  Note the
source order: `if len(nums) == 1: return [group]` comes before the
`assert sum(nums) == len(group)`. -/
def split_group (s : State) (g : Nat) (nums : List Nat) :
    Except String (List Nat) × State :=
  if nums.length = 1 then (.ok [g], s)
  else
    match getG s g with
    | none => (.error "invalid group id", s)
    | some gr =>
      if nums.sum = gr.channel_elems.length then splitGroupLoop g s nums
      else (.error "AssertionError: sum(nums) == len(group)", s)

/-- Loop of `ChannelTensor.__init__` (channel_modules.py:254):
`group.add_channel_elem(channel_elem, channel_elem.index_in_channel_tensor)`
for each fresh element. -/
def ctorLoop (g : Nat) : State → List Nat → Except String Unit × State
  | s, [] => (.ok (), s)
  | s, e :: rest =>
    match getE s e with
    | none => (.error "invalid elem id", s)
    | some el =>
      match add_channel_elem s g e (Int.ofNat el.index_in_channel_tensor) with
      | (.ok _, s') => ctorLoop g s' rest
      | (.error m, s') => (.error m, s')

/-- Source `ChannelTensor.__init__` (channel_modules.py:248): a fresh group,
`num_channel_elems` fresh elements, each added to the group under its own
tensor index.  There is no check on `num_channel_elems`; 0 yields an empty
tensor.  Returns the element-id list of the new tensor. -/
def channelTensorNew (s : State) (n : Nat) : Except String (List Nat) × State :=
  let g := s.groups.length
  let base := s.elems.length
  let s1 : State :=
    { elems := s.elems ++ (List.range n).map
        (fun i => { index_in_channel_tensor := i, group := none, index_in_group := -1 }),
      groups := s.groups ++ [⟨[]⟩] }
  let eids := (List.range n).map (fun i => base + i)
  match ctorLoop g s1 eids with
  | (.ok _, s2) => (.ok eids, s2)
  | (.error m, s2) => (.error m, s2)

/-- Loop of `ChannelTensor.group_dict` (channel_modules.py:280): walk the
elements carrying the current block start, group and last bucket index; a new
block is emitted when `current_group is not self[i].group or
current_group_idx > self[i].index_in_group`. -/
def groupDictLoop (s : State) :
    List Nat → Nat → Nat → Option Nat → Int →
    List ((Nat × Nat) × Option Nat) →
    Except String (List ((Nat × Nat) × Option Nat))
  | [], i, start, curG, _, acc => .ok (acc ++ [((start, i), curG)])
  | e :: rest, i, start, curG, curIdx, acc =>
    match getE s e with
    | none => .error "invalid elem id"
    | some el =>
      if curG ≠ el.group ∨ curIdx > el.index_in_group then
        groupDictLoop s rest (i + 1) i el.group el.index_in_group
          (acc ++ [((start, i), curG)])
      else
        groupDictLoop s rest (i + 1) start el.group el.index_in_group acc

/-- Source `ChannelTensor.group_dict` (channel_modules.py:273).  On an empty
tensor the Python body raises UnboundLocalError (`current_group` is never
assigned). -/
def groupDict (s : State) (t : List Nat) :
    Except String (List ((Nat × Nat) × Option Nat)) :=
  match t with
  | [] => .error "UnboundLocalError: current_group"
  | e0 :: rest =>
    match getE s e0 with
    | none => .error "invalid elem id"
    | some el0 => groupDictLoop s rest 1 0 el0.group el0.index_in_group []

/-- Insertion sort, ascending — models Python `sorted` on a list of ints. -/
def insertSorted (x : Nat) : List Nat → List Nat
  | [] => [x]
  | a :: l => if x ≤ a then x :: a :: l else a :: insertSorted x l

def sortNat (l : List Nat) : List Nat :=
  l.foldr insertSorted []

/-- Drop adjacent duplicates of a sorted list — with `sortNat` this models
Python `sorted(set(...))`. -/
def dedupAdj : List Nat → List Nat
  | [] => []
  | [a] => [a]
  | a :: b :: l => if a = b then dedupAdj (b :: l) else a :: dedupAdj (b :: l)

/-- Source `ChannelTensor._index2points` (channel_modules.py:349): all starts
and ends of all key lists, as a sorted deduplicated list. -/
def index2points (indexes : List (List (Nat × Nat))) : List Nat :=
  dedupAdj (sortNat (indexes.foldl
    (fun acc l => acc ++ l.map Prod.fst ++ l.map Prod.snd) []))

def points2numGo (start : Nat) : List Nat → List Nat
  | [] => []
  | e :: rest => (e - start) :: points2numGo e rest

/-- Source `ChannelTensor._points2num` (channel_modules.py:363).  Note the
source initialises `start = 0`, not to the first point. -/
def points2num : List Nat → List Nat
  | [] => []
  | _ :: rest => points2numGo 0 rest

/-- The `while start_ < end: new_nums.append(nums[i]); start_ += nums[i];
i += 1` loop of `align_groups_with_nums` (channel_modules.py:266).  The fuel
argument makes the model total; Python loops forever when it meets a zero
entry, which the claims never exercise. -/
def collectNums : Nat → List Nat → Nat → Nat → Nat → Except String (List Nat × Nat)
  | fuel, nums, i, start_, end_ =>
    if start_ < end_ then
      match fuel, nums[i]? with
      | 0, _ => .error "model: fuel exhausted in align while loop"
      | _ + 1, none => .error "IndexError: nums"
      | fuel' + 1, some nv =>
        match collectNums fuel' nums (i + 1) (start_ + nv) end_ with
        | .ok (l, i') => .ok (nv :: l, i')
        | .error m => .error m
    else .ok ([], i)

/-- Loop of `align_groups_with_nums` (channel_modules.py:263) over a snapshot
of the `group_dict` keys; `self.group_dict[(start, end)]` on
channel_modules.py:270 re-evaluates the `group_dict` property against the
mutated state, so the lookup is recomputed here.  When the collected
`new_nums` is a singleton, `split_group` returns `[group]` untouched even for
a `None` group, hence the early continue. -/
def agwnLoop (t : List Nat) (nums : List Nat) :
    State → List (Nat × Nat) → Nat → Except String Unit × State
  | s, [], _ => (.ok (), s)
  | s, (st, en) :: rest, i =>
    match collectNums (en + 1) nums i st en with
    | .error m => (.error m, s)
    | .ok (new_nums, i') =>
      match groupDict s t with
      | .error m => (.error m, s)
      | .ok gd =>
        match List.lookup (st, en) gd with
        | none => (.error "KeyError: group_dict", s)
        | some gOpt =>
          if new_nums.length = 1 then agwnLoop t nums s rest i'
          else
            match gOpt with
            | none => (.error "TypeError: len of None", s)
            | some g =>
              match split_group s g new_nums with
              | (.ok _, s') => agwnLoop t nums s' rest i'
              | (.error m, s') => (.error m, s')

/-- Source `ChannelTensor.align_groups_with_nums` (channel_modules.py:260). -/
def align_groups_with_nums (s : State) (t : List Nat) (nums : List Nat) :
    Except String Unit × State :=
  match groupDict s t with
  | .error m => (.error m, s)
  | .ok gd => agwnLoop t nums s (gd.map Prod.fst) 0

def collectGroupDictKeys (s : State) :
    List (List Nat) → Except String (List (List (Nat × Nat)))
  | [] => .ok []
  | t :: rest =>
    match groupDict s t with
    | .error m => .error m
    | .ok gd =>
      match collectGroupDictKeys s rest with
      | .ok l => .ok ((gd.map Prod.fst) :: l)
      | .error m => .error m

def alignEach (nums : List Nat) : State → List (List Nat) → Except String Unit × State
  | s, [] => (.ok (), s)
  | s, t :: rest =>
    match align_groups_with_nums s t nums with
    | (.ok _, s') => alignEach nums s' rest
    | (.error m, s') => (.error m, s')

/-- Source `ChannelTensor.align_tensors` (channel_modules.py:303):
`assert len(tensors) >= 2`, then the equal-length asserts, then the aligned
breakpoints, then one `align_groups_with_nums` per tensor when more than one
block remains. -/
def align_tensors (s : State) (ts : List (List Nat)) : Except String Unit × State :=
  match ts with
  | t0 :: t1 :: rest =>
    if (t1 :: rest).any (fun t => t.length != t0.length) then
      (.error "AssertionError: tensor lengths differ", s)
    else
      match collectGroupDictKeys s (t0 :: t1 :: rest) with
      | .error m => (.error m, s)
      | .ok keyss =>
        let nums := points2num (index2points keyss)
        if nums.length > 1 then alignEach nums s (t0 :: t1 :: rest)
        else (.ok (), s)
  | _ => (.error "AssertionError: len(tensors) >= 2", s)

/-- Inner loop of `ChannelTensor.union` (channel_modules.py:324): for each
element of a copy of `ch2`'s bucket, `ch1.group.add_channel_elem(ch,
ch1.index_in_group)`, re-reading `ch1`'s back-reference each time. -/
def unionInner (e1 : Nat) : State → List Nat → Except String Unit × State
  | s, [] => (.ok (), s)
  | s, ch :: rest =>
    match elemBackref s e1 with
    | none => (.error "AttributeError: ch1.group is None", s)
    | some (g1, k1) =>
      match add_channel_elem s g1 ch k1 with
      | (.ok _, s') => unionInner e1 s' rest
      | (.error m, s') => (.error m, s')

def unionZip : State → List (Nat × Nat) → Except String Unit × State
  | s, [] => (.ok (), s)
  | s, (e1, e2) :: rest =>
    match elemBackref s e1, elemBackref s e2 with
    | some _, some (g2, k2) =>
      match bucketAt s g2 k2 with
      | none => (.error "KeyError", s)
      | some b =>
        match unionInner e1 s b with
        | (.ok _, s') => unionZip s' rest
        | (.error m, s') => (.error m, s')
    | _, _ => (.error "AssertionError: groups are not None", s)

/-- Source `ChannelTensor.union` (channel_modules.py:317): align the two
tensors, then merge bucket-wise along matching positions. -/
def tensorUnion (s : State) (t1 t2 : List Nat) : Except String Unit × State :=
  match align_tensors s [t1, t2] with
  | (.error m, s') => (.error m, s')
  | (.ok _, s') => unionZip s' (t1.zip t2)

/-- Inner `for j in range(0, ratio)` loop of `ChannelTensor.expand`
(channel_modules.py:334); `ch.index_in_group` is re-read from the state at
each iteration. -/
def expandJ (newT : List Nat) (g : Nat) (src : Nat) (i ratio : Nat) :
    State → List Nat → Except String Unit × State
  | s, [] => (.ok (), s)
  | s, j :: rest =>
    match newT[i * ratio + j]? with
    | none => (.error "IndexError", s)
    | some ex =>
      match getE s src with
      | none => (.error "invalid elem id", s)
      | some el =>
        match add_channel_elem s g ex el.index_in_group with
        | (.ok _, s') => expandJ newT g src i ratio s' rest
        | (.error m, s') => (.error m, s')

def expandILoop (newT : List Nat) (ratio : Nat) :
    State → List Nat → Nat → Except String Unit × State
  | s, [], _ => (.ok (), s)
  | s, ch :: rest, i =>
    match getE s ch with
    | none => (.error "invalid elem id", s)
    | some el =>
      match el.group with
      | none => (.error "AssertionError: ch.group is not None", s)
      | some g =>
        match expandJ newT g ch i ratio s (List.range ratio) with
        | (.ok _, s') => expandILoop newT ratio s' rest (i + 1)
        | (.error m, s') => (.error m, s')

/-- Source `ChannelTensor.expand` (channel_modules.py:327): build a fresh
tensor of length `len(self) * ratio` and add each block of `ratio` new
elements into the bucket of the corresponding original element. -/
def expand (s : State) (t : List Nat) (ratio : Nat) :
    Except String (List Nat) × State :=
  match channelTensorNew s (t.length * ratio) with
  | (.error m, s') => (.error m, s')
  | (.ok newT, s1) =>
    match expandILoop newT ratio s1 t 0 with
    | (.ok _, s2) => (.ok newT, s2)
    | (.error m, s2) => (.error m, s2)

/-- The public partition operations of claim C1. -/
inductive Op where
  | addElem (g : Nat) (e : Nat) (k : Int)
  | removeElem (e : Nat)
  | unionTwo (g1 g2 : Nat)
  | splitG (g : Nat) (nums : List Nat)
deriving Repr, DecidableEq

def stepOp (s : State) : Op → Except String Unit × State
  | .addElem g e k => add_channel_elem s g e k
  | .removeElem e => remove_from_group s e
  | .unionTwo g1 g2 =>
    match union_two_groups s g1 g2 with
    | (.ok _, s') => (.ok (), s')
    | (.error m, s') => (.error m, s')
  | .splitG g nums =>
    match split_group s g nums with
    | (.ok _, s') => (.ok (), s')
    | (.error m, s') => (.error m, s')

/-- Run a sequence of top-level calls; a raising call aborts the run. -/
def runOps : State → List Op → Option State
  | s, [] => some s
  | s, op :: rest =>
    match stepOp s op with
    | (.ok _, s') => runOps s' rest
    | (.error _, _) => none

/-! ### Observation vocabulary for the claims -/

/-- Number of occurrences of element `e` across all buckets of one group. -/
def groupOcc (gr : BaseChannelGroup) (e : Nat) : Nat :=
  (gr.channel_elems.map (fun p => p.2.count e)).sum

/-- Number of occurrences of element `e` across all buckets of all groups. -/
def occCount (s : State) (e : Nat) : Nat :=
  (s.groups.map (fun gr => groupOcc gr e)).sum

/-- The bucket keys of group `g` (empty for an invalid id). -/
def keysOf (s : State) (g : Nat) : List Int :=
  match getG s g with
  | some gr => dKeys gr.channel_elems
  | none => []

/-- Claim C1, per element: `e` sits in exactly one bucket of exactly one
group, and its back-reference names the bucket containing it. -/
def exactlyOneB (s : State) (e : Nat) : Bool :=
  occCount s e == 1 &&
    (match elemBackref s e with
     | some (g, k) => memBucketB s g k e
     | none => false)

/-- A group owning at least one element. -/
def liveGroupB (gr : BaseChannelGroup) : Bool :=
  gr.channel_elems.any (fun p => !p.2.isEmpty)

/-- Bucket keys form the set `{0, ..., N-1}` where `N` is the bucket count. -/
def contiguousKeysB (gr : BaseChannelGroup) : Bool :=
  let n := gr.channel_elems.length
  (dKeys gr.channel_elems).all (fun k => decide (0 ≤ k ∧ k < (n : Int))) &&
    (List.range n).all (fun i => (dKeys gr.channel_elems).contains (Int.ofNat i))

/-- Claim C1 as stated: every element in exactly one bucket with a correct
back-reference, and contiguous bucket keys on every live group. -/
def c1ClaimB (s : State) : Bool :=
  (List.range s.elems.length).all (exactlyOneB s) &&
    s.groups.all (fun gr => !liveGroupB gr || contiguousKeysB gr)

/-- Amended claim C1, per element: if owned, it occurs exactly once across
all buckets of all groups, namely in the bucket its back-reference names; if
unowned, it occurs nowhere. -/
def atMostOneB (s : State) (e : Nat) : Bool :=
  match elemBackref s e with
  | some (g, k) => occCount s e == 1 && memBucketB s g k e
  | none => occCount s e == 0

def c1AmendedB (s : State) : Bool :=
  (List.range s.elems.length).all (atMostOneB s)

/-- Machinery invariant: nodup bucket keys per group; every element occurs
exactly once iff owned; an owned element's back-reference is valid and names
a bucket containing it.  `occCount = 1` together with membership at the
back-reference bucket pins the unique occurrence there. -/
def InvM (s : State) : Prop :=
  (∀ gr ∈ s.groups, (dKeys gr.channel_elems).Nodup) ∧
  (∀ e, occCount s e = (if (elemBackref s e).isSome then 1 else 0)) ∧
  (∀ e g k, elemBackref s e = some (g, k) →
    g < s.groups.length ∧ memBucketB s g k e = true)

/-- Spec wording of the amended C7 boundary rule, for one consecutive pair:
the owning group differs, or the bucket index strictly decreases. -/
def breakAtB (s : State) (prev cur : Nat) : Bool :=
  match getE s prev, getE s cur with
  | some p, some c =>
    decide (p.group ≠ c.group ∨ c.index_in_group < p.index_in_group)
  | _, _ => false

/-- Positions (counting from `i`) at which a new block starts according to
`breakAtB`, walking the tail of the tensor with its predecessor. -/
def specStarts (s : State) : Nat → Nat → List Nat → List Nat
  | _, _, [] => []
  | prev, i, e :: rest =>
    if breakAtB s prev e then i :: specStarts s e (i + 1) rest
    else specStarts s e (i + 1) rest

/-- Claim C7 as stated, for one consecutive pair: the owning group differs,
or the bucket index does not strictly increase (less than or equal). -/
def breakLeB (s : State) (prev cur : Nat) : Bool :=
  match getE s prev, getE s cur with
  | some p, some c =>
    decide (p.group ≠ c.group ∨ c.index_in_group ≤ p.index_in_group)
  | _, _ => false

/-! ### Concrete scenario states used by the claims -/

/-- Fresh length-2 tensor: elements 0,1 in group 0 at buckets 0,1. -/
def stLen2 : State := (channelTensorNew emptyState 2).2

/-- Fresh length-3 tensor: elements 0,1,2 in group 0 at buckets 0,1,2. -/
def stLen3 : State := (channelTensorNew emptyState 3).2

/-- Two independent fresh length-3 tensors (elements 0-2 and 3-5). -/
def stTwoLen3 : State := (channelTensorNew stLen3 3).2

/-- C2 scenario: tensor A of length 4 (elements 0-3) whose single group is
split `[2, 2]`, so A has boundaries `[(0,2),(2,4)]`. -/
def stC2a : State := (split_group (channelTensorNew emptyState 4).2 0 [2, 2]).2

/-- C2 scenario: on top of `stC2a`, tensor B of length 4 (elements 4-7, group
id 3) split `[1, 3]`, so B has boundaries `[(0,1),(1,4)]`. -/
def stC2b : State := (split_group (channelTensorNew stC2a 4).2 3 [1, 3]).2

def tensorC2a : List Nat := [0, 1, 2, 3]

def tensorC2b : List Nat := [4, 5, 6, 7]

/-- C2 counterexample: a length-3 tensor D (elements 0-2, group 0), a
length-2 tensor A (elements 3,4) whose elements are moved into D's group at
buckets 0 and 2, a length-2 tensor C (elements 5,6, group 2) and a length-2
tensor E (elements 7,8, group 3) with C's first element moved into E's group
at bucket 1.  A and C have equal length 2, A has boundaries `[(0,2)]` over
the 3-bucket group 0, C has boundaries `[(0,1),(1,2)]`. -/
def stC2x : State :=
  (add_channel_elem
    (channelTensorNew
      (channelTensorNew
        (add_channel_elem (add_channel_elem (channelTensorNew
          (channelTensorNew emptyState 3).2 2).2 0 3 0).2 0 4 2).2
      2).2
    2).2 3 5 1).2

def tensorC2xA : List Nat := [3, 4]

def tensorC2xC : List Nat := [5, 6]

/-- C7 counterexample state: a fresh length-2 tensor whose second element is
removed and re-added into bucket 0, so both elements share bucket 0 of
group 0. -/
def stC7 : State := (add_channel_elem (remove_from_group stLen2 1).2 0 1 0).2

/-- C3 scenario: union of the two independent length-3 tensors. -/
def resC3 : Except String Unit × State := tensorUnion stTwoLen3 [0, 1, 2] [3, 4, 5]

/-- Number of nonempty buckets (equivalence classes) in the whole state. -/
def classCount (s : State) : Nat :=
  (s.groups.map (fun gr => (gr.channel_elems.filter (fun p => !p.2.isEmpty)).length)).sum

/-- C5: split the fresh 3-bucket group by `[1, 2]` (positive sizes summing to
3), then union the resulting groups. -/
def resC5split : Except String (List Nat) × State := split_group stLen3 0 [1, 2]

/-- C5 amended: split the fresh 3-bucket group by `[1, 1, 1]`, then union the
resulting groups 1, 2, 3. -/
def resC5eq : Except String (List Nat) × State := split_group stLen3 0 [1, 1, 1]

instance {ε α : Type} [DecidableEq ε] [DecidableEq α] : DecidableEq (Except ε α) :=
  fun a b =>
    match a, b with
    | .ok x, .ok y => if h : x = y then .isTrue (by simp [h]) else .isFalse (by simp [h])
    | .error x, .error y =>
      if h : x = y then .isTrue (by simp [h]) else .isFalse (by simp [h])
    | .ok _, .error _ => .isFalse (by simp)
    | .error _, .ok _ => .isFalse (by simp)

/-- Executable sufficient check for the machinery invariant `InvM` on a
concrete state: nodup keys, bucket members within the arena, and correct
placement of every element of the arena. -/
def invCheckB (s : State) : Bool :=
  s.groups.all (fun gr => decide ((dKeys gr.channel_elems).Nodup)) &&
  s.groups.all (fun gr => gr.channel_elems.all
    (fun p => p.2.all (fun e => decide (e < s.elems.length)))) &&
  (List.range s.elems.length).all (fun e =>
    (occCount s e == (if (elemBackref s e).isSome then 1 else 0)) &&
    (match elemBackref s e with
     | some (g, k) => decide (g < s.groups.length) && memBucketB s g k e
     | none => true))

/-! ## Claim theorems: concrete counterexamples and scenarios -/

/-- C9 counterexample: constructing a `ChannelTensor` with length 0 is not
rejected; the constructor succeeds and yields a zero-length tensor. -/
theorem c9_zero_length_not_rejected :
    (channelTensorNew emptyState 0).1 = .ok [] := by decide

/-- C9 amended: construction with length 0 succeeds and produces a
zero-length tensor (the constructor performs no length validation); the
`group_dict` accessor of that empty tensor then raises, so the tensor is not
usable as a grouped tensor. -/
theorem c9_amended_zero_length_constructs :
    (channelTensorNew emptyState 0).1 = .ok [] ∧
    groupDict (channelTensorNew emptyState 0).2 [] =
      .error "UnboundLocalError: current_group" := by decide

/-- C6 counterexample: `split_group` on the fresh 3-bucket group with the
single-entry size list `[5]`, whose sum 5 differs from the bucket count 3,
does not fail: the `len(nums) == 1` early return precedes the sum assertion
and yields `[group]` with the state untouched. -/
theorem c6_single_block_skips_sum_check :
    split_group stLen3 0 [5] = (.ok [0], stLen3) := by decide

/-- C6 amended: when the size list has at least two entries and its sum
differs from the bucket count, `split_group` fails by assertion and leaves
the state (hence the group's buckets and memberships) exactly unchanged; a
single-entry size list, regardless of its value, is a no-op returning
`[group]`. -/
theorem c6_amended_split_failure_behavior :
    (∀ (s : State) (g : Nat) (gr : BaseChannelGroup) (nums : List Nat),
      getG s g = some gr → 2 ≤ nums.length → nums.sum ≠ gr.channel_elems.length →
      split_group s g nums = (.error "AssertionError: sum(nums) == len(group)", s)) ∧
    (∀ (s : State) (g : Nat) (n : Nat), split_group s g [n] = (.ok [g], s)) := by
  constructor
  · intro s g gr nums hg hlen hsum
    have h1 : nums.length ≠ 1 := by omega
    simp [split_group, h1, hg, hsum]
  · intro s g n
    simp [split_group]

/-- Witness for the amended C6: a two-entry size list with a wrong sum fails
on the fresh 3-bucket group leaving the state unchanged, and the single-entry
list `[5]` is a no-op. -/
theorem c6_amended_witness :
    split_group stLen3 0 [2, 2] =
      (.error "AssertionError: sum(nums) == len(group)", stLen3) ∧
    split_group stLen3 0 [5] = (.ok [0], stLen3) :=
  ⟨c6_amended_split_failure_behavior.1 stLen3 0 ⟨[(0, [0]), (1, [1]), (2, [2])]⟩
      [2, 2] (by decide) (by decide) (by decide),
    c6_amended_split_failure_behavior.2 stLen3 0 5⟩

/-- C5 counterexample: for the fresh 3-bucket group and the positive block
sizes `[1, 2]` summing to 3, `split_group` succeeds but `union_groups` on the
result fails its equal-length assertion, so the split/union round trip does
not reconstruct the original group. -/
theorem c5_round_trip_fails :
    resC5split.1 = .ok [1, 2] ∧
    (union_groups resC5split.2 [1, 2]).1 =
      .error "AssertionError: len(group1) == len(group2)" := by decide

/-- C5 amended: the split/union round trip does not reconstruct the original
group.  `union_groups` requires all blocks to have equal bucket counts (it
fails for `[1, 2]`, see the counterexample), and when they do it merges the
matching buckets of the blocks: splitting the fresh 3-bucket group by
`[1, 1, 1]` and unioning the three resulting singleton groups yields one
group with a single bucket `[0, 1, 2]` holding all three elements, whereas in
the original group element 1 sat alone in bucket 1. -/
theorem c5_amended_union_merges_blocks :
    resC5eq.1 = .ok [1, 2, 3] ∧
    (union_groups resC5eq.2 [1, 2, 3]).1 = .ok 1 ∧
    keysOf (union_groups resC5eq.2 [1, 2, 3]).2 1 = [0] ∧
    bucketAt (union_groups resC5eq.2 [1, 2, 3]).2 1 0 = some [0, 1, 2] ∧
    elemBackref (union_groups resC5eq.2 [1, 2, 3]).2 1 = some (1, 0) ∧
    elemBackref stLen3 1 = some (0, 1) := by decide

/-- C7 counterexample: in `stC7` both elements of the tensor `[0, 1]` share
bucket 0 of group 0, so by the claimed rule (break when the bucket index does
not strictly increase, i.e. is less than or equal) a new block would start at
position 1; but `group_dict` produces the single block `(0, 2)`: the code
only breaks on a strict decrease. -/
theorem c7_non_strict_increase_does_not_break :
    breakLeB stC7 0 1 = true ∧
    elemBackref stC7 0 = some (0, 0) ∧
    elemBackref stC7 1 = some (0, 0) ∧
    groupDict stC7 [0, 1] = .ok [((0, 2), some 0)] := by decide

/-- C2 counterexample: `tensorC2xA` and `tensorC2xC` have equal length 2 and
well-formed boundary decompositions, yet `align_tensors` on them raises (the
group owning A's single block has 3 buckets, one of which belongs to a
position outside A, so the induced `split_group` fails its sum assertion)
instead of terminating with identical decompositions. -/
theorem c2_equal_length_align_fails :
    tensorC2xA.length = tensorC2xC.length ∧
    (groupDict stC2x tensorC2xA).map (List.map Prod.fst) = .ok [(0, 2)] ∧
    (groupDict stC2x tensorC2xC).map (List.map Prod.fst) = .ok [(0, 1), (1, 2)] ∧
    (align_tensors stC2x [tensorC2xA, tensorC2xC]).1 =
      .error "AssertionError: sum(nums) == len(group)" := by decide

/-- C1 counterexample: starting from a fresh length-2 `ChannelTensor`, the
public call `remove_from_group` leaves element 1 in no bucket of any group
(refuting "exactly one bucket"), and following it with
`add_channel_elem(elem 1, key 5)` leaves group 0 with bucket keys
`[0, 1, 5]` (refuting contiguity); the claimed property holds initially and
is false after each of the two runs. -/
theorem c1_claim_fails_after_public_ops :
    c1ClaimB stLen2 = true ∧
    (runOps stLen2 [Op.removeElem 1]).map c1ClaimB = some false ∧
    (runOps stLen2 [Op.removeElem 1]).map (fun s => occCount s 1) = some 0 ∧
    (runOps stLen2 [Op.removeElem 1, Op.addElem 0 1 5]).map c1ClaimB = some false ∧
    (runOps stLen2 [Op.removeElem 1, Op.addElem 0 1 5]).map (fun s => keysOf s 0) =
      some [0, 1, 5] := by decide

/-! ## Lemma stack: state primitives -/

theorem getE_some_lt {s : State} {e : Nat} {el : ChannelElement}
    (h : getE s e = some el) : e < s.elems.length := by
  by_contra hlt
  rw [getE, List.getElem?_eq_none (Nat.le_of_not_lt hlt)] at h
  exact absurd h (by simp)

theorem getG_some_lt {s : State} {g : Nat} {gr : BaseChannelGroup}
    (h : getG s g = some gr) : g < s.groups.length := by
  by_contra hlt
  rw [getG, List.getElem?_eq_none (Nat.le_of_not_lt hlt)] at h
  exact absurd h (by simp)

theorem getG_mem {s : State} {g : Nat} {gr : BaseChannelGroup}
    (h : getG s g = some gr) : gr ∈ s.groups := by
  simp only [getG] at h
  exact List.getElem?_mem h

theorem getE_modG (s : State) (g : Nat) (d : Dict) (e : Nat) :
    getE (modG s g d) e = getE s e := rfl

theorem getG_setE (s : State) (e : Nat) (v : ChannelElement) (g : Nat) :
    getG (setE s e v) g = getG s g := rfl

theorem elems_length_setE (s : State) (e : Nat) (v : ChannelElement) :
    (setE s e v).elems.length = s.elems.length := by
  simp [setE]

theorem elems_length_modG (s : State) (g : Nat) (d : Dict) :
    (modG s g d).elems.length = s.elems.length := rfl

theorem groups_length_setE (s : State) (e : Nat) (v : ChannelElement) :
    (setE s e v).groups.length = s.groups.length := rfl

theorem groups_length_modG (s : State) (g : Nat) (d : Dict) :
    (modG s g d).groups.length = s.groups.length := by
  simp [modG]

theorem getE_setE_self {s : State} {e : Nat} (v : ChannelElement)
    (h : e < s.elems.length) : getE (setE s e v) e = some v := by
  simp [getE, setE, List.getElem?_set_self h]

theorem getE_setE_ne {s : State} {e x : Nat} (v : ChannelElement)
    (h : x ≠ e) : getE (setE s e v) x = getE s x := by
  simp [getE, setE, List.getElem?_set_ne (Ne.symm h)]

theorem getG_modG {s : State} {g : Nat} (d : Dict) (g2 : Nat)
    (h : g < s.groups.length) :
    getG (modG s g d) g2 = if g2 = g then some ⟨d⟩ else getG s g2 := by
  by_cases hg : g2 = g
  · subst hg; simp [getG, modG, List.getElem?_set_self h]
  · simp [getG, modG, List.getElem?_set_ne (Ne.symm hg), hg]

/-! ### Dict lemmas -/

theorem dLookup_mem_keys {d : Dict} {k : Int} {b : List Nat}
    (h : dLookup d k = some b) : k ∈ dKeys d := by
  induction d with
  | nil => simp [dLookup] at h
  | cons p d ih =>
    simp only [dLookup] at h
    by_cases hk : p.1 = k
    · simp [dKeys, hk]
    · simp only [hk, if_false] at h
      simp only [dKeys, List.map_cons, List.mem_cons]
      exact Or.inr (ih h)

theorem mem_keys_dLookup {d : Dict} {k : Int} (h : k ∈ dKeys d) :
    ∃ b, dLookup d k = some b := by
  induction d with
  | nil => simp [dKeys] at h
  | cons p d ih =>
    by_cases hk : p.1 = k
    · exact ⟨p.2, by simp [dLookup, hk]⟩
    · simp only [dKeys, List.map_cons, List.mem_cons] at h
      rcases h with h | h
      · exact absurd h.symm hk
      · simpa [dLookup, hk] using ih h

theorem dLookup_dAppend_self (d : Dict) (k : Int) (e : Nat) :
    dLookup (dAppend d k e) k = some ((dLookup d k).getD [] ++ [e]) := by
  induction d with
  | nil => simp [dAppend, dLookup]
  | cons p d ih =>
    by_cases hk : p.1 = k
    · simp [dAppend, dLookup, hk]
    · simp [dAppend, dLookup, hk, ih]

theorem dLookup_dAppend_ne (d : Dict) {k k' : Int} (e : Nat) (h : k' ≠ k) :
    dLookup (dAppend d k e) k' = dLookup d k' := by
  have h' : ¬(k = k') := fun hh => h hh.symm
  induction d with
  | nil => simp [dAppend, dLookup, h']
  | cons p d ih =>
    by_cases hk : p.1 = k
    · simp [dAppend, dLookup, hk, h']
    · by_cases hk' : p.1 = k'
      · simp only [dAppend, if_neg hk, dLookup, if_pos hk']
      · simp [dAppend, hk, dLookup, hk', ih]

theorem dKeys_dAppend (d : Dict) (k : Int) (e : Nat) :
    dKeys (dAppend d k e) = if k ∈ dKeys d then dKeys d else dKeys d ++ [k] := by
  induction d with
  | nil => simp [dAppend, dKeys]
  | cons p d ih =>
    by_cases hk : p.1 = k
    · simp [dAppend, dKeys, hk]
    · have hne : ¬(k = p.1) := fun hh => hk hh.symm
      by_cases hmem : k ∈ dKeys d
      · simp only [dKeys, List.map_cons] at ih ⊢
        simp only [dAppend, hk, if_false, List.map_cons]
        rw [ih]
        simp [dKeys] at hmem
        simp [hmem, hne]
      · simp only [dKeys, List.map_cons] at ih ⊢
        simp only [dAppend, hk, if_false, List.map_cons]
        rw [ih]
        simp [dKeys] at hmem
        simp [hmem, hne]

theorem dLookup_dSet_self (d : Dict) (k : Int) (b : List Nat) :
    dLookup (dSet d k b) k = some b := by
  induction d with
  | nil => simp [dSet, dLookup]
  | cons p d ih =>
    by_cases hk : p.1 = k
    · simp [dSet, dLookup, hk]
    · simp [dSet, dLookup, hk, ih]

theorem dLookup_dSet_ne (d : Dict) {k k' : Int} (b : List Nat) (h : k' ≠ k) :
    dLookup (dSet d k b) k' = dLookup d k' := by
  have h' : ¬(k = k') := fun hh => h hh.symm
  induction d with
  | nil => simp [dSet, dLookup, h']
  | cons p d ih =>
    by_cases hk : p.1 = k
    · simp [dSet, dLookup, hk, h']
    · by_cases hk' : p.1 = k'
      · simp only [dSet, if_neg hk, dLookup, if_pos hk']
      · simp [dSet, hk, dLookup, hk', ih]

theorem dKeys_dSet (d : Dict) (k : Int) (b : List Nat) :
    dKeys (dSet d k b) = if k ∈ dKeys d then dKeys d else dKeys d ++ [k] := by
  induction d with
  | nil => simp [dSet, dKeys]
  | cons p d ih =>
    by_cases hk : p.1 = k
    · simp [dSet, dKeys, hk]
    · have hne : ¬(k = p.1) := fun hh => hk hh.symm
      by_cases hmem : k ∈ dKeys d
      · simp only [dKeys, List.map_cons] at ih ⊢
        simp only [dSet, hk, if_false, List.map_cons]
        rw [ih]
        simp [dKeys] at hmem
        simp [hmem, hne]
      · simp only [dKeys, List.map_cons] at ih ⊢
        simp only [dSet, hk, if_false, List.map_cons]
        rw [ih]
        simp [dKeys] at hmem
        simp [hmem, hne]

theorem dLookup_dPop_ne (d : Dict) {k k' : Int} (h : k' ≠ k) :
    dLookup (dPop d k) k' = dLookup d k' := by
  induction d with
  | nil => simp [dPop]
  | cons p d ih =>
    by_cases hk : p.1 = k
    · have h' : ¬(k = k') := fun hh => h hh.symm
      simp [dPop, hk, dLookup, h']
    · simp [dPop, hk, dLookup, ih]

theorem dKeys_dPop (d : Dict) (k : Int) :
    dKeys (dPop d k) = (dKeys d).erase k := by
  induction d with
  | nil => simp [dPop, dKeys]
  | cons p d ih =>
    by_cases hk : p.1 = k
    · simp [dPop, hk, dKeys, List.erase_cons]
    · simp only [dPop, hk, if_false, dKeys, List.map_cons, List.erase_cons]
      simp only [dKeys] at ih
      rw [ih]
      simp [beq_iff_eq, hk]


/-! ### Occurrence counting lemmas -/

theorem count_one (e x : Nat) : List.count x [e] = if x = e then 1 else 0 := by
  by_cases hx : x = e
  · subst hx; simp
  · have h2 : (e == x) = false := beq_eq_false_iff_ne.mpr (fun h => hx h.symm)
    rw [List.count_singleton, if_neg hx]
    simp [h2]

theorem count_append_one (b : List Nat) (e x : Nat) :
    (b ++ [e]).count x = b.count x + (if x = e then 1 else 0) := by
  rw [List.count_append, count_one]

theorem groupOcc_cons (p : Int × List Nat) (d : Dict) (x : Nat) :
    groupOcc ⟨p :: d⟩ x = p.2.count x + groupOcc ⟨d⟩ x := by
  simp [groupOcc]

theorem groupOcc_dAppend (d : Dict) (k : Int) (e x : Nat) :
    groupOcc ⟨dAppend d k e⟩ x = groupOcc ⟨d⟩ x + (if x = e then 1 else 0) := by
  induction d with
  | nil => simp [dAppend, groupOcc, count_one]
  | cons p d ih =>
    by_cases hk : p.1 = k
    · simp [dAppend, hk, groupOcc_cons, count_one]
      omega
    · simp only [dAppend, if_neg hk, groupOcc_cons, ih]
      omega

theorem groupOcc_dSet (d : Dict) (k : Int) {b : List Nat} (b' : List Nat) (x : Nat)
    (hb : dLookup d k = some b) :
    groupOcc ⟨dSet d k b'⟩ x + b.count x = groupOcc ⟨d⟩ x + b'.count x := by
  induction d with
  | nil => simp [dLookup] at hb
  | cons p d ih =>
    by_cases hk : p.1 = k
    · simp only [dLookup, if_pos hk, Option.some.injEq] at hb
      subst hb
      simp only [dSet, if_pos hk, groupOcc_cons]
      omega
    · simp only [dLookup, if_neg hk] at hb
      have := ih hb
      simp only [dSet, if_neg hk, groupOcc_cons]
      omega

theorem groupOcc_dPop_empty (d : Dict) (k : Int) (x : Nat)
    (hb : dLookup d k = some []) :
    groupOcc ⟨dPop d k⟩ x = groupOcc ⟨d⟩ x := by
  induction d with
  | nil => simp [dLookup] at hb
  | cons p d ih =>
    by_cases hk : p.1 = k
    · simp only [dLookup, if_pos hk, Option.some.injEq] at hb
      simp [dPop, hk, groupOcc_cons, hb]
    · simp only [dLookup, if_neg hk] at hb
      simp only [dPop, if_neg hk, groupOcc_cons, ih hb]

theorem count_le_groupOcc (d : Dict) (k : Int) {b : List Nat} (x : Nat)
    (hb : dLookup d k = some b) : b.count x ≤ groupOcc ⟨d⟩ x := by
  induction d with
  | nil => simp [dLookup] at hb
  | cons p d ih =>
    by_cases hk : p.1 = k
    · simp only [dLookup, if_pos hk, Option.some.injEq] at hb
      subst hb
      simp only [groupOcc_cons]
      omega
    · simp only [dLookup, if_neg hk] at hb
      have := ih hb
      simp only [groupOcc_cons]
      omega

theorem two_keys_count_le (d : Dict) {k k' : Int} {b b' : List Nat} (x : Nat)
    (hkk : k ≠ k') (hb : dLookup d k = some b) (hb' : dLookup d k' = some b') :
    b.count x + b'.count x ≤ groupOcc ⟨d⟩ x := by
  induction d with
  | nil => simp [dLookup] at hb
  | cons p d ih =>
    by_cases hk : p.1 = k
    · have hk2 : ¬(p.1 = k') := by rw [hk]; exact hkk
      simp only [dLookup, if_pos hk, Option.some.injEq] at hb
      simp only [dLookup, if_neg hk2] at hb'
      subst hb
      have := count_le_groupOcc d k' x hb'
      simp only [groupOcc_cons]
      omega
    · by_cases hk2 : p.1 = k'
      · simp only [dLookup, if_neg hk] at hb
        simp only [dLookup, if_pos hk2, Option.some.injEq] at hb'
        subst hb'
        have := count_le_groupOcc d k x hb
        simp only [groupOcc_cons]
        omega
      · simp only [dLookup, if_neg hk] at hb
        simp only [dLookup, if_neg hk2] at hb'
        have := ih hb hb'
        simp only [groupOcc_cons]
        omega

theorem sum_get_le {α : Type} (l : List α) (f : α → Nat) {i : Nat} {a : α}
    (h : l[i]? = some a) : f a ≤ (l.map f).sum := by
  induction l generalizing i with
  | nil => simp at h
  | cons c l ih =>
    cases i with
    | zero =>
      simp only [List.getElem?_cons_zero, Option.some.injEq] at h
      subst h
      simp
    | succ n =>
      simp only [List.getElem?_cons_succ] at h
      have := ih h
      simp only [List.map_cons, List.sum_cons]
      omega

theorem sum_two_get_le {α : Type} (l : List α) (f : α → Nat) {i j : Nat} {a b : α}
    (hij : i ≠ j) (ha : l[i]? = some a) (hb : l[j]? = some b) :
    f a + f b ≤ (l.map f).sum := by
  induction l generalizing i j with
  | nil => simp at ha
  | cons c l ih =>
    cases i with
    | zero =>
      simp only [List.getElem?_cons_zero, Option.some.injEq] at ha
      subst ha
      cases j with
      | zero => exact absurd rfl hij
      | succ m =>
        simp only [List.getElem?_cons_succ] at hb
        have := sum_get_le l f hb
        simp only [List.map_cons, List.sum_cons]
        omega
    | succ n =>
      cases j with
      | zero =>
        simp only [List.getElem?_cons_zero, Option.some.injEq] at hb
        subst hb
        simp only [List.getElem?_cons_succ] at ha
        have := sum_get_le l f ha
        simp only [List.map_cons, List.sum_cons]
        omega
      | succ m =>
        simp only [List.getElem?_cons_succ] at ha hb
        have := ih (fun hh => hij (by omega)) ha hb
        simp only [List.map_cons, List.sum_cons]
        omega

theorem sum_set_list {α : Type} (l : List α) {i : Nat} {gr : α} (v : α)
    (f : α → Nat) (h : l[i]? = some gr) :
    ((l.set i v).map f).sum + f gr = (l.map f).sum + f v := by
  induction l generalizing i with
  | nil => simp at h
  | cons c l ih =>
    cases i with
    | zero =>
      simp only [List.getElem?_cons_zero, Option.some.injEq] at h
      subst h
      simp only [List.set_cons_zero, List.map_cons, List.sum_cons]
      omega
    | succ n =>
      simp only [List.getElem?_cons_succ] at h
      have := ih h
      simp only [List.set_cons_succ, List.map_cons, List.sum_cons]
      omega

theorem occCount_modG {s : State} {g : Nat} {gr : BaseChannelGroup} (d : Dict)
    (x : Nat) (hg : getG s g = some gr) :
    occCount (modG s g d) x + groupOcc gr x = occCount s x + groupOcc ⟨d⟩ x := by
  simpa [occCount, modG] using sum_set_list s.groups (⟨d⟩ : BaseChannelGroup)
    (fun gr => groupOcc gr x) hg

theorem occCount_setE (s : State) (e : Nat) (v : ChannelElement) (x : Nat) :
    occCount (setE s e v) x = occCount s x := rfl

theorem groupOcc_le_occCount {s : State} {g : Nat} {gr : BaseChannelGroup}
    (x : Nat) (hg : getG s g = some gr) : groupOcc gr x ≤ occCount s x :=
  sum_get_le s.groups (fun gr => groupOcc gr x) hg

theorem two_groups_occ_le {s : State} {g g' : Nat} {gr gr' : BaseChannelGroup}
    (x : Nat) (hne : g ≠ g') (hg : getG s g = some gr) (hg' : getG s g' = some gr') :
    groupOcc gr x + groupOcc gr' x ≤ occCount s x :=
  sum_two_get_le s.groups (fun gr => groupOcc gr x) hne hg hg'

theorem memBucketB_iff {s : State} {g : Nat} {k : Int} {e : Nat} :
    memBucketB s g k e = true ↔ ∃ b, bucketAt s g k = some b ∧ e ∈ b := by
  unfold memBucketB
  cases hb : bucketAt s g k with
  | none => simp
  | some b => simp [List.contains, List.elem_iff]

/-! ### The machinery invariant -/

theorem bucketAt_def {s : State} {g : Nat} {gr : BaseChannelGroup}
    (hgr : getG s g = some gr) (k : Int) :
    bucketAt s g k = dLookup gr.channel_elems k := by
  simp [bucketAt, hgr]

theorem bucketAt_some {s : State} {g : Nat} {k : Int} {b : List Nat}
    (hb : bucketAt s g k = some b) :
    ∃ gr, getG s g = some gr ∧ dLookup gr.channel_elems k = some b := by
  unfold bucketAt at hb
  cases hgr : getG s g with
  | none => rw [hgr] at hb; exact absurd hb (by simp)
  | some gr => rw [hgr] at hb; exact ⟨gr, rfl, hb⟩

theorem keysOf_def {s : State} {g : Nat} {gr : BaseChannelGroup}
    (hgr : getG s g = some gr) : keysOf s g = dKeys gr.channel_elems := by
  simp [keysOf, hgr]

theorem inv_keys_nodup {s : State} (h : InvM s) {g : Nat} {gr : BaseChannelGroup}
    (hg : getG s g = some gr) : (dKeys gr.channel_elems).Nodup :=
  h.1 gr (getG_mem hg)

theorem inv_occ {s : State} (h : InvM s) (e : Nat) :
    occCount s e = if (elemBackref s e).isSome then 1 else 0 := h.2.1 e

theorem inv_home {s : State} (h : InvM s) {e : Nat} {g : Nat} {k : Int}
    (hb : elemBackref s e = some (g, k)) :
    g < s.groups.length ∧ memBucketB s g k e = true := h.2.2 e g k hb

theorem mem_backref {s : State} (hInv : InvM s) {g : Nat} {k : Int}
    {b : List Nat} {x : Nat} (hb : bucketAt s g k = some b) (hx : x ∈ b) :
    elemBackref s x = some (g, k) := by
  obtain ⟨gr, hgr, hlk⟩ := bucketAt_some hb
  have heta : (⟨gr.channel_elems⟩ : BaseChannelGroup) = gr := rfl
  have hcount : 0 < b.count x := List.count_pos_iff.mpr hx
  have h1 := count_le_groupOcc gr.channel_elems k x hlk
  rw [heta] at h1
  have h2 := groupOcc_le_occCount x hgr
  have hoccEq := inv_occ hInv x
  cases hbr : elemBackref s x with
  | none =>
    exfalso
    rw [hbr] at hoccEq
    simp at hoccEq
    omega
  | some p =>
    obtain ⟨g0, k0⟩ := p
    rw [hbr] at hoccEq
    simp at hoccEq
    obtain ⟨hg0lt, hmem0⟩ := inv_home hInv hbr
    obtain ⟨b0, hb0, hx0⟩ := memBucketB_iff.mp hmem0
    obtain ⟨gr0, hgr0, hlk0⟩ := bucketAt_some hb0
    have heta0 : (⟨gr0.channel_elems⟩ : BaseChannelGroup) = gr0 := rfl
    have hc0 : 0 < b0.count x := List.count_pos_iff.mpr hx0
    by_cases hgg : g0 = g
    · subst hgg
      rw [hgr0] at hgr
      injection hgr with hgr
      subst hgr
      by_cases hkk : k0 = k
      · subst hkk; rfl
      · exfalso
        have h3 := two_keys_count_le gr0.channel_elems x hkk hlk0 hlk
        rw [heta0] at h3
        have h4 := groupOcc_le_occCount x hgr0
        omega
    · exfalso
      have h3 := two_groups_occ_le x hgg hgr0 hgr
      have h4 := count_le_groupOcc gr0.channel_elems k0 x hlk0
      rw [heta0] at h4
      omega

theorem inv_atMostOne {s : State} (hInv : InvM s) (e : Nat) :
    atMostOneB s e = true := by
  unfold atMostOneB
  cases hbr : elemBackref s e with
  | none =>
    have h := inv_occ hInv e
    rw [hbr] at h
    simp at h
    simp [h]
  | some p =>
    obtain ⟨g, k⟩ := p
    have h := inv_occ hInv e
    rw [hbr] at h
    simp at h
    have hm := (inv_home hInv hbr).2
    simp [h, hm]

theorem inv_c1Amended {s : State} (hInv : InvM s) : c1AmendedB s = true := by
  unfold c1AmendedB
  rw [List.all_eq_true]
  intro e _
  exact inv_atMostOne hInv e

/-! ### Effect lemmas for the two primitive mutators -/

theorem memBucketB_congr {s s' : State} {g : Nat} {k : Int}
    (h : bucketAt s' g k = bucketAt s g k) (x : Nat) :
    memBucketB s' g k x = memBucketB s g k x := by
  unfold memBucketB
  rw [h]

theorem contains_mem {b : List Nat} {x : Nat} (h : x ∈ b) : b.contains x = true := by
  simp [List.contains, List.elem_iff, h]

theorem contains_not_mem {b : List Nat} {x : Nat} (h : x ∉ b) :
    b.contains x = false := by
  cases hc : b.contains x
  · rfl
  · exact absurd (List.elem_iff.mp hc) h

theorem memBucketB_of_bucket {s : State} {g : Nat} {k : Int} {b : List Nat}
    (hb : bucketAt s g k = some b) (x : Nat) :
    memBucketB s g k x = b.contains x := by
  unfold memBucketB
  rw [hb]

theorem contains_erase_ne {b : List Nat} {x e : Nat} (h : x ≠ e) :
    (b.erase e).contains x = b.contains x := by
  by_cases hx : x ∈ b
  · rw [contains_mem hx, contains_mem ((List.mem_erase_of_ne h).mpr hx)]
  · have h2 : x ∉ b.erase e := fun hh => hx ((List.mem_erase_of_ne h).mp hh)
    rw [contains_not_mem hx, contains_not_mem h2]

theorem elemBackref_congr {s s' : State} {x : Nat}
    (h : getE s' x = getE s x) : elemBackref s' x = elemBackref s x := by
  unfold elemBackref
  rw [h]

theorem keysNodup_set {s : State} (g : Nat) (d : Dict)
    (h1 : ∀ gr ∈ s.groups, (dKeys gr.channel_elems).Nodup)
    (h2 : (dKeys d).Nodup) :
    ∀ gr ∈ s.groups.set g ⟨d⟩, (dKeys gr.channel_elems).Nodup := by
  intro gr' hmem
  rcases List.mem_or_eq_of_mem_set hmem with h | h
  · exact h1 _ h
  · subst h; exact h2

theorem remove_effect {s : State} {e : Nat} {el : ChannelElement} {g : Nat}
    (hInv : InvM s) (hE : getE s e = some el) (hgrp : el.group = some g) :
    ∃ s' gr b,
      getG s g = some gr ∧
      dLookup gr.channel_elems el.index_in_group = some b ∧ e ∈ b ∧
      remove_from_group s e = (.ok (), s') ∧
      s'.elems.length = s.elems.length ∧
      s'.groups.length = s.groups.length ∧
      getE s' e = some { el with group := none, index_in_group := -1 } ∧
      (∀ x, x ≠ e → getE s' x = getE s x) ∧
      (∀ g2, g2 ≠ g → getG s' g2 = getG s g2) ∧
      bucketAt s' g el.index_in_group = some (b.erase e) ∧
      (∀ k2, k2 ≠ el.index_in_group → bucketAt s' g k2 = bucketAt s g k2) ∧
      (∀ g2, keysOf s' g2 = keysOf s g2) ∧
      (∀ x, x ≠ e → ∀ g2 k2, memBucketB s' g2 k2 x = memBucketB s g2 k2 x) ∧
      (∀ x, occCount s' x + (if x = e then 1 else 0) = occCount s x) ∧
      InvM s' := by
  have hbr : elemBackref s e = some (g, el.index_in_group) := by
    simp [elemBackref, hE, hgrp]
  obtain ⟨hglt, hmem⟩ := inv_home hInv hbr
  obtain ⟨b, hb, heb⟩ := memBucketB_iff.mp hmem
  obtain ⟨gr, hgr, hlk⟩ := bucketAt_some hb
  have helt : e < s.elems.length := getE_some_lt hE
  set d' : Dict := dSet gr.channel_elems el.index_in_group (b.erase e) with hd'
  set s1 : State := modG s g d' with hs1
  set s' : State := setE s1 e { el with group := none, index_in_group := -1 } with hs'
  have hgetE1 : getE s1 e = some el := hE
  have hrun : remove_from_group s e = (.ok (), s') := by
    simp only [remove_from_group, hE, hgrp, clean_channel_info, hgr, hlk,
      listRemove, if_pos heb, clean_group_info, hgetE1]
  have hlen : s'.elems.length = s.elems.length := by
    rw [hs']
    rw [elems_length_setE]
    rfl
  have hglen : s'.groups.length = s.groups.length := by
    rw [hs', groups_length_setE, hs1, groups_length_modG]
  have hE' : getE s' e = some { el with group := none, index_in_group := -1 } := by
    rw [hs']
    exact getE_setE_self _ (by rw [hs1, elems_length_modG]; exact helt)
  have hEx : ∀ x, x ≠ e → getE s' x = getE s x := by
    intro x hx
    rw [hs', getE_setE_ne _ hx, hs1, getE_modG]
  have hG' : ∀ g2, getG s' g2 = if g2 = g then some ⟨d'⟩ else getG s g2 := by
    intro g2
    rw [hs', getG_setE, hs1, getG_modG _ _ hglt]
  have hGne : ∀ g2, g2 ≠ g → getG s' g2 = getG s g2 := by
    intro g2 h2
    rw [hG', if_neg h2]
  have hbkt : bucketAt s' g el.index_in_group = some (b.erase e) := by
    rw [bucketAt_def (by rw [hG']; simp : getG s' g = some ⟨d'⟩), hd',
      dLookup_dSet_self]
  have hbktne : ∀ k2, k2 ≠ el.index_in_group → bucketAt s' g k2 = bucketAt s g k2 := by
    intro k2 h2
    rw [bucketAt_def (by rw [hG']; simp : getG s' g = some ⟨d'⟩), hd',
      dLookup_dSet_ne _ _ h2, bucketAt_def hgr]
  have hbktframe : ∀ g2 k2, g2 ≠ g → bucketAt s' g2 k2 = bucketAt s g2 k2 := by
    intro g2 k2 h2
    unfold bucketAt
    rw [hGne g2 h2]
  have hkeys : ∀ g2, keysOf s' g2 = keysOf s g2 := by
    intro g2
    by_cases h2 : g2 = g
    · subst h2
      rw [keysOf_def (by rw [hG']; simp : getG s' g2 = some ⟨d'⟩), hd', dKeys_dSet,
        if_pos (dLookup_mem_keys hlk), keysOf_def hgr]
    · unfold keysOf
      rw [hGne g2 h2]
  have hmemframe : ∀ x, x ≠ e → ∀ g2 k2, memBucketB s' g2 k2 x = memBucketB s g2 k2 x := by
    intro x hx g2 k2
    by_cases h2 : g2 = g
    · subst h2
      by_cases hk2 : k2 = el.index_in_group
      · subst hk2
        rw [memBucketB_of_bucket hbkt x, memBucketB_of_bucket hb x,
          contains_erase_ne hx]
      · exact memBucketB_congr (hbktne k2 hk2) x
    · exact memBucketB_congr (hbktframe g2 k2 h2) x
  have hocc : ∀ x, occCount s' x + (if x = e then 1 else 0) = occCount s x := by
    intro x
    have h1 : occCount s' x = occCount s1 x := by rw [hs', occCount_setE]
    have h2 := occCount_modG d' x hgr
    rw [← hs1] at h2
    have h3 := groupOcc_dSet gr.channel_elems el.index_in_group (b.erase e) x hlk
    have heta : (⟨gr.channel_elems⟩ : BaseChannelGroup) = gr := rfl
    rw [heta] at h3
    rw [← hd'] at h3
    by_cases hx : x = e
    · subst hx
      have h4 : (b.erase x).count x = b.count x - 1 := List.count_erase_self x b
      have h5 : 0 < b.count x := List.count_pos_iff.mpr heb
      rw [if_pos rfl]
      omega
    · have h4 : (b.erase e).count x = b.count x := List.count_erase_of_ne hx b
      rw [if_neg hx]
      omega
  refine ⟨s', gr, b, hgr, hlk, heb, hrun, hlen, hglen, hE', hEx, hGne, hbkt,
    hbktne, hkeys, hmemframe, hocc, ?_⟩
  refine ⟨?_, ?_, ?_⟩
  · have h2 : (dKeys d').Nodup := by
      rw [hd', dKeys_dSet, if_pos (dLookup_mem_keys hlk)]
      exact inv_keys_nodup hInv hgr
    intro gr' hmem'
    have : gr' ∈ s.groups.set g ⟨d'⟩ := by
      simpa [hs', setE, hs1, modG] using hmem'
    exact keysNodup_set g d' hInv.1 h2 gr' this
  · intro x
    by_cases hx : x = e
    · subst hx
      have hbr' : elemBackref s' x = none := by
        simp [elemBackref, hE']
      rw [hbr']
      have h0 := inv_occ hInv x
      rw [hbr] at h0
      simp at h0
      have := hocc x
      simp at this ⊢
      omega
    · have hbr' : elemBackref s' x = elemBackref s x :=
        elemBackref_congr (hEx x hx)
      rw [hbr']
      have := hocc x
      rw [if_neg hx] at this
      rw [inv_occ hInv x] at this
      omega
  · intro x g2 k2 hbx
    by_cases hx : x = e
    · subst hx
      exfalso
      rw [elemBackref_congr (rfl : getE s' x = getE s' x)] at hbx
      simp [elemBackref, hE'] at hbx
    · have hbr' : elemBackref s' x = elemBackref s x :=
        elemBackref_congr (hEx x hx)
      rw [hbr'] at hbx
      obtain ⟨hlt2, hm2⟩ := inv_home hInv hbx
      refine ⟨by rw [hglen]; exact hlt2, ?_⟩
      rw [hmemframe x hx g2 k2]
      exact hm2

theorem contains_append_one_ne {b : List Nat} {x e : Nat} (h : x ≠ e) :
    (b ++ [e]).contains x = b.contains x := by
  by_cases hx : x ∈ b
  · rw [contains_mem hx, contains_mem (by simp [hx])]
  · have h2 : x ∉ b ++ [e] := by
      simp only [List.mem_append, List.mem_singleton]
      rintro (hh | hh)
      · exact hx hh
      · exact h hh
    rw [contains_not_mem hx, contains_not_mem h2]

/-- Re-establish the invariant from the per-element effect description of a
mutation that touches the placement of one element `e` only. -/
theorem inv_rebuild {s s' : State} (hInv : InvM s) (e : Nat)
    (hlen : s'.groups.length = s.groups.length)
    (hbr : ∀ x, x ≠ e → elemBackref s' x = elemBackref s x)
    (hocc : ∀ x, x ≠ e → occCount s' x = occCount s x)
    (hmemf : ∀ x, x ≠ e → ∀ g2 k2, memBucketB s' g2 k2 x = memBucketB s g2 k2 x)
    (hnodup : ∀ gr ∈ s'.groups, (dKeys gr.channel_elems).Nodup)
    (hcase : (elemBackref s' e = none ∧ occCount s' e = 0) ∨
      (∃ g k, elemBackref s' e = some (g, k) ∧ g < s'.groups.length ∧
        occCount s' e = 1 ∧ memBucketB s' g k e = true)) :
    InvM s' := by
  refine ⟨hnodup, ?_, ?_⟩
  · intro x
    by_cases hx : x = e
    · subst hx
      rcases hcase with ⟨h1, h2⟩ | ⟨g, k, h1, _, h3, _⟩
      · simp [h1, h2]
      · simp [h1, h3]
    · rw [hbr x hx, hocc x hx]
      exact inv_occ hInv x
  · intro x g2 k2 hb2
    by_cases hx : x = e
    · subst hx
      rcases hcase with ⟨h1, _⟩ | ⟨g, k, h1, hlt, _, hm⟩
      · rw [h1] at hb2
        cases hb2
      · rw [h1] at hb2
        injection hb2 with hb2
        obtain ⟨rfl, rfl⟩ := Prod.mk.injEq .. ▸ (by
          exact ⟨congrArg Prod.fst hb2, congrArg Prod.snd hb2⟩ :
            g = g2 ∧ k = k2)
        exact ⟨hlt, hm⟩
    · rw [hbr x hx] at hb2
      obtain ⟨hlt, hm⟩ := inv_home hInv hb2
      refine ⟨by rw [hlen]; exact hlt, ?_⟩
      rw [hmemf x hx g2 k2]
      exact hm

/-- Successful run equation for `remove_from_group`, without any invariant
hypothesis: only the shape of the state at the element's back-reference is
needed. -/
theorem remove_run {s : State} {e : Nat} {el : ChannelElement} {g : Nat}
    {gr : BaseChannelGroup} {b : List Nat}
    (hE : getE s e = some el) (hgrp : el.group = some g)
    (hgr : getG s g = some gr)
    (hlk : dLookup gr.channel_elems el.index_in_group = some b) (heb : e ∈ b) :
    remove_from_group s e =
      (.ok (), clean_group_info
        (modG s g (dSet gr.channel_elems el.index_in_group (b.erase e))) e) := by
  simp only [remove_from_group, hE, hgrp, clean_channel_info, hgr, hlk,
    listRemove, if_pos heb]

theorem nodup_append_one {l : List Int} {k : Int} (h : l.Nodup) (hk : k ∉ l) :
    (l ++ [k]).Nodup := by
  rw [List.nodup_append]
  refine ⟨h, List.nodup_singleton k, ?_⟩
  intro a ha hb
  rw [List.mem_singleton] at hb
  subst hb
  exact hk ha

theorem memBucketB_append_frame {s s' : State} {g : Nat} {k : Int}
    {gr : BaseChannelGroup} {e x : Nat}
    (hG : getG s g = some gr)
    (hbkt : bucketAt s' g k = some ((dLookup gr.channel_elems k).getD [] ++ [e]))
    (hx : x ≠ e) :
    memBucketB s' g k x = memBucketB s g k x := by
  have h1 := memBucketB_of_bucket hbkt x
  have h2 : memBucketB s g k x = ((dLookup gr.channel_elems k).getD []).contains x := by
    unfold memBucketB
    rw [bucketAt_def hG]
    cases dLookup gr.channel_elems k with
    | none => simp
    | some bb => simp
  rw [h1, h2, contains_append_one_ne hx]

theorem add_effect {s : State} {e : Nat} {el : ChannelElement} {g : Nat}
    {gr : BaseChannelGroup} (k : Int)
    (hInv : InvM s) (hE : getE s e = some el) (hG : getG s g = some gr)
    (hne : el.group ≠ some g) :
    ∃ s',
      add_channel_elem s g e k = (.ok (), s') ∧
      s'.elems.length = s.elems.length ∧
      s'.groups.length = s.groups.length ∧
      getE s' e = some { el with group := some g, index_in_group := k } ∧
      (∀ x, x ≠ e → getE s' x = getE s x) ∧
      memBucketB s' g k e = true ∧
      (∀ x, x ≠ e → ∀ g2 k2, memBucketB s' g2 k2 x = memBucketB s g2 k2 x) ∧
      bucketAt s' g k = some ((dLookup gr.channel_elems k).getD [] ++ [e]) ∧
      (∀ k2, k2 ≠ k → bucketAt s' g k2 = bucketAt s g k2) ∧
      (∀ g2, g2 ≠ g → el.group ≠ some g2 → getG s' g2 = getG s g2) ∧
      (∀ g0, el.group = some g0 → ∀ b0, bucketAt s g0 el.index_in_group = some b0 →
        bucketAt s' g0 el.index_in_group = some (b0.erase e) ∧
        (∀ k2, k2 ≠ el.index_in_group → bucketAt s' g0 k2 = bucketAt s g0 k2)) ∧
      keysOf s' g = (if k ∈ keysOf s g then keysOf s g else keysOf s g ++ [k]) ∧
      (∀ g2, g2 ≠ g → keysOf s' g2 = keysOf s g2) ∧
      (∀ x, occCount s' x = if x = e then 1 else occCount s x) ∧
      InvM s' := by
  have hglt : g < s.groups.length := getG_some_lt hG
  have helt : e < s.elems.length := getE_some_lt hE
  set dA : Dict := dAppend gr.channel_elems k e with hdA
  set s1 : State := modG s g dA with hs1
  have hG1 : ∀ g2, getG s1 g2 = if g2 = g then some ⟨dA⟩ else getG s g2 := by
    intro g2
    rw [hs1, getG_modG _ _ hglt]
  have hE1 : getE s1 e = some el := hE
  have hkeysA : dKeys dA = if k ∈ dKeys gr.channel_elems then dKeys gr.channel_elems
      else dKeys gr.channel_elems ++ [k] := by
    rw [hdA, dKeys_dAppend]
  have hnodupA : (dKeys dA).Nodup := by
    rw [hkeysA]
    by_cases hmemk : k ∈ dKeys gr.channel_elems
    · rw [if_pos hmemk]; exact inv_keys_nodup hInv hG
    · rw [if_neg hmemk]; exact nodup_append_one (inv_keys_nodup hInv hG) hmemk
  cases hg0 : el.group with
  | none =>
    set s' : State := setE s1 e { el with group := some g, index_in_group := k }
      with hs'
    have hrun : add_channel_elem s g e k = (.ok (), s') := by
      rw [hs', hs1, hdA]
      simp only [add_channel_elem, hE, hG, if_neg hne, hg0, register_group,
        getE_modG]
      simp [hE]
    have hlen : s'.elems.length = s.elems.length := by
      rw [hs', elems_length_setE, hs1, elems_length_modG]
    have hglen : s'.groups.length = s.groups.length := by
      rw [hs', groups_length_setE, hs1, groups_length_modG]
    have hE' : getE s' e = some { el with group := some g, index_in_group := k } := by
      rw [hs']
      exact getE_setE_self _ (by rw [hs1, elems_length_modG]; exact helt)
    have hEx : ∀ x, x ≠ e → getE s' x = getE s x := by
      intro x hx
      rw [hs', getE_setE_ne _ hx, hs1, getE_modG]
    have hG' : ∀ g2, getG s' g2 = if g2 = g then some ⟨dA⟩ else getG s g2 := by
      intro g2
      rw [hs', getG_setE]
      exact hG1 g2
    have hGg : getG s' g = some ⟨dA⟩ := by rw [hG']; simp
    have hbkt : bucketAt s' g k =
        some ((dLookup gr.channel_elems k).getD [] ++ [e]) := by
      rw [bucketAt_def hGg, hdA, dLookup_dAppend_self]
    have hbktne : ∀ k2, k2 ≠ k → bucketAt s' g k2 = bucketAt s g k2 := by
      intro k2 h2
      rw [bucketAt_def hGg, hdA, dLookup_dAppend_ne _ _ h2, bucketAt_def hG]
    have hbktframe : ∀ g2 k2, g2 ≠ g → bucketAt s' g2 k2 = bucketAt s g2 k2 := by
      intro g2 k2 h2
      unfold bucketAt
      rw [hG', if_neg h2]
    have hmem_e : memBucketB s' g k e = true := by
      rw [memBucketB_of_bucket hbkt e]
      exact contains_mem (by simp)
    have hmemf : ∀ x, x ≠ e → ∀ g2 k2,
        memBucketB s' g2 k2 x = memBucketB s g2 k2 x := by
      intro x hx g2 k2
      by_cases h2 : g2 = g
      · subst h2
        by_cases hk2 : k2 = k
        · subst hk2
          exact memBucketB_append_frame hG hbkt hx
        · exact memBucketB_congr (hbktne k2 hk2) x
      · exact memBucketB_congr (hbktframe g2 k2 h2) x
    have hocc : ∀ x, occCount s' x = if x = e then 1 else occCount s x := by
      intro x
      have h1 : occCount s' x = occCount s1 x := by rw [hs', occCount_setE]
      have h2 := occCount_modG dA x hG
      rw [← hs1] at h2
      have h3 := groupOcc_dAppend gr.channel_elems k e x
      have heta : (⟨gr.channel_elems⟩ : BaseChannelGroup) = gr := rfl
      rw [heta, ← hdA] at h3
      by_cases hx : x = e
      · subst hx
        have hbr : elemBackref s x = none := by simp [elemBackref, hE, hg0]
        have h0 := inv_occ hInv x
        rw [hbr] at h0
        simp at h0
        simp at h3
        rw [if_pos rfl, h1]
        omega
      · rw [if_neg hx, h1]
        simp only [if_neg hx] at h3
        omega
    have hbr' : elemBackref s' e = some (g, k) := by
      simp [elemBackref, hE']
    have hkeysG : keysOf s' g =
        (if k ∈ keysOf s g then keysOf s g else keysOf s g ++ [k]) := by
      rw [keysOf_def hGg, hkeysA, keysOf_def hG]
    have hkeysne : ∀ g2, g2 ≠ g → keysOf s' g2 = keysOf s g2 := by
      intro g2 h2
      unfold keysOf
      rw [hG', if_neg h2]
    have hInv' : InvM s' := by
      apply inv_rebuild hInv e hglen
        (fun x hx => elemBackref_congr (hEx x hx))
        (fun x hx => by rw [hocc x, if_neg hx]) hmemf
      · have hgrps : s'.groups = s.groups.set g ⟨dA⟩ := by
          rw [hs', hs1]
          rfl
        rw [hgrps]
        exact keysNodup_set g dA hInv.1 hnodupA
      · right
        exact ⟨g, k, hbr', by rw [hglen]; exact hglt,
          by rw [hocc e, if_pos rfl], hmem_e⟩
    refine ⟨s', hrun, hlen, hglen, hE', hEx, hmem_e, hmemf, hbkt, hbktne,
      ?_, ?_, hkeysG, hkeysne, hocc, hInv'⟩
    · intro g2 h2 _
      rw [hG', if_neg h2]
    · intro g0 hg0'
      exact Option.noConfusion hg0'
  | some g0 =>
    have hgne : g0 ≠ g := by
      intro hh
      apply hne
      rw [hg0, hh]
    have hbr0 : elemBackref s e = some (g0, el.index_in_group) := by
      simp [elemBackref, hE, hg0]
    obtain ⟨hg0lt, hmem0⟩ := inv_home hInv hbr0
    obtain ⟨b0, hb0, heb0⟩ := memBucketB_iff.mp hmem0
    obtain ⟨gr0, hgr0, hlk0⟩ := bucketAt_some hb0
    set dS : Dict := dSet gr0.channel_elems el.index_in_group (b0.erase e) with hdS
    set s2 : State := modG s1 g0 dS with hs2
    have hgr0' : getG s1 g0 = some gr0 := by
      rw [hG1, if_neg hgne]
      exact hgr0
    have hrm : remove_from_group s1 e =
        (.ok (), clean_group_info s2 e) := by
      rw [hs2, hdS]
      exact remove_run hE1 hg0 hgr0' hlk0 heb0
    have hE2 : getE s2 e = some el := hE
    have hclean : clean_group_info s2 e =
        setE s2 e { el with group := none, index_in_group := -1 } := by
      simp only [clean_group_info, hE2]
    set s2c : State := setE s2 e { el with group := none, index_in_group := -1 }
      with hs2c
    have helt2 : e < s2.elems.length := by
      rw [hs2, elems_length_modG, hs1, elems_length_modG]
      exact helt
    have hE2c : getE s2c e = some { el with group := none, index_in_group := -1 } := by
      rw [hs2c]
      exact getE_setE_self _ helt2
    set s' : State := setE s2c e { el with group := some g, index_in_group := k }
      with hs'
    have hreg : register_group s2c e g k = s' := by
      rw [hs']
      simp only [register_group, hE2c]
    have hrun : add_channel_elem s g e k = (.ok (), s') := by
      simp only [add_channel_elem, hE, hG, if_neg hne, hg0, ← hs1, ← hdA, hrm,
        hclean, ← hs2c, hreg]
      simp [hgne]
    have hlen : s'.elems.length = s.elems.length := by
      rw [hs', elems_length_setE, hs2c, elems_length_setE, hs2,
        elems_length_modG, hs1, elems_length_modG]
    have hglen : s'.groups.length = s.groups.length := by
      rw [hs', groups_length_setE, hs2c, groups_length_setE, hs2,
        groups_length_modG, hs1, groups_length_modG]
    have helt' : e < s2c.elems.length := by
      rw [hs2c, elems_length_setE]
      exact helt2
    have hE' : getE s' e = some { el with group := some g, index_in_group := k } := by
      rw [hs']
      exact getE_setE_self _ helt'
    have hEx : ∀ x, x ≠ e → getE s' x = getE s x := by
      intro x hx
      rw [hs', getE_setE_ne _ hx, hs2c, getE_setE_ne _ hx, hs2, getE_modG,
        hs1, getE_modG]
    have hg0lt1 : g0 < s1.groups.length := by
      rw [hs1, groups_length_modG]
      exact hg0lt
    have hG' : ∀ g2, getG s' g2 =
        if g2 = g0 then some ⟨dS⟩ else if g2 = g then some ⟨dA⟩ else getG s g2 := by
      intro g2
      rw [hs', getG_setE, hs2c, getG_setE, hs2, getG_modG _ _ hg0lt1]
      by_cases h2 : g2 = g0
      · rw [if_pos h2, if_pos h2]
      · rw [if_neg h2, if_neg h2, hG1]
    have hGg : getG s' g = some ⟨dA⟩ := by
      rw [hG', if_neg hgne.symm]
      simp
    have hGg0 : getG s' g0 = some ⟨dS⟩ := by
      rw [hG']
      simp
    have hbkt : bucketAt s' g k =
        some ((dLookup gr.channel_elems k).getD [] ++ [e]) := by
      rw [bucketAt_def hGg, hdA, dLookup_dAppend_self]
    have hbktne : ∀ k2, k2 ≠ k → bucketAt s' g k2 = bucketAt s g k2 := by
      intro k2 h2
      rw [bucketAt_def hGg, hdA, dLookup_dAppend_ne _ _ h2, bucketAt_def hG]
    have hbkt0 : bucketAt s' g0 el.index_in_group = some (b0.erase e) := by
      rw [bucketAt_def hGg0, hdS, dLookup_dSet_self]
    have hbkt0ne : ∀ k2, k2 ≠ el.index_in_group →
        bucketAt s' g0 k2 = bucketAt s g0 k2 := by
      intro k2 h2
      rw [bucketAt_def hGg0, hdS, dLookup_dSet_ne _ _ h2, bucketAt_def hgr0]
    have hbktframe : ∀ g2 k2, g2 ≠ g → g2 ≠ g0 →
        bucketAt s' g2 k2 = bucketAt s g2 k2 := by
      intro g2 k2 h2 h3
      unfold bucketAt
      rw [hG', if_neg h3, if_neg h2]
    have hmem_e : memBucketB s' g k e = true := by
      rw [memBucketB_of_bucket hbkt e]
      exact contains_mem (by simp)
    have hmemf : ∀ x, x ≠ e → ∀ g2 k2,
        memBucketB s' g2 k2 x = memBucketB s g2 k2 x := by
      intro x hx g2 k2
      by_cases h2 : g2 = g
      · subst h2
        by_cases hk2 : k2 = k
        · subst hk2
          exact memBucketB_append_frame hG hbkt hx
        · exact memBucketB_congr (hbktne k2 hk2) x
      · by_cases h3 : g2 = g0
        · subst h3
          by_cases hk2 : k2 = el.index_in_group
          · subst hk2
            rw [memBucketB_of_bucket hbkt0 x, memBucketB_of_bucket hb0 x,
              contains_erase_ne hx]
          · exact memBucketB_congr (hbkt0ne k2 hk2) x
        · exact memBucketB_congr (hbktframe g2 k2 h2 h3) x
    have hocc : ∀ x, occCount s' x = if x = e then 1 else occCount s x := by
      intro x
      have h1 : occCount s' x = occCount s2 x := by
        rw [hs', occCount_setE, hs2c, occCount_setE]
      have h2 := occCount_modG dS x hgr0'
      rw [← hs2] at h2
      have h3 := groupOcc_dSet gr0.channel_elems el.index_in_group (b0.erase e) x hlk0
      have heta0 : (⟨gr0.channel_elems⟩ : BaseChannelGroup) = gr0 := rfl
      rw [heta0, ← hdS] at h3
      have h4 := occCount_modG dA x hG
      rw [← hs1] at h4
      have h5 := groupOcc_dAppend gr.channel_elems k e x
      have heta : (⟨gr.channel_elems⟩ : BaseChannelGroup) = gr := rfl
      rw [heta, ← hdA] at h5
      by_cases hx : x = e
      · subst hx
        have h0 := inv_occ hInv x
        rw [hbr0] at h0
        simp at h0
        have h6 : (b0.erase x).count x = b0.count x - 1 := List.count_erase_self x b0
        have h7 : 0 < b0.count x := List.count_pos_iff.mpr heb0
        simp at h5
        rw [if_pos rfl, h1]
        omega
      · have h6 : (b0.erase e).count x = b0.count x := List.count_erase_of_ne hx b0
        rw [if_neg hx]
        simp only [if_neg hx] at h5
        omega
    have hbr' : elemBackref s' e = some (g, k) := by
      simp [elemBackref, hE']
    have hkeysG : keysOf s' g =
        (if k ∈ keysOf s g then keysOf s g else keysOf s g ++ [k]) := by
      rw [keysOf_def hGg, hkeysA, keysOf_def hG]
    have hkeysne : ∀ g2, g2 ≠ g → keysOf s' g2 = keysOf s g2 := by
      intro g2 h2
      by_cases h3 : g2 = g0
      · subst h3
        rw [keysOf_def hGg0, hdS, dKeys_dSet,
          if_pos (dLookup_mem_keys hlk0), keysOf_def hgr0]
      · unfold keysOf
        rw [hG', if_neg h3, if_neg h2]
    have hInv' : InvM s' := by
      apply inv_rebuild hInv e hglen
        (fun x hx => elemBackref_congr (hEx x hx))
        (fun x hx => by rw [hocc x, if_neg hx]) hmemf
      · have hgrps : s'.groups = (s.groups.set g ⟨dA⟩).set g0 ⟨dS⟩ := by
          rw [hs', hs2c, hs2, hs1]
          rfl
        rw [hgrps]
        have hnodupS : (dKeys dS).Nodup := by
          rw [hdS, dKeys_dSet, if_pos (dLookup_mem_keys hlk0)]
          exact inv_keys_nodup hInv hgr0
        intro gr' hmem'
        rcases List.mem_or_eq_of_mem_set hmem' with h | h
        · rcases List.mem_or_eq_of_mem_set h with h' | h'
          · exact hInv.1 _ h'
          · subst h'; exact hnodupA
        · subst h; exact hnodupS
      · right
        exact ⟨g, k, hbr', by rw [hglen]; exact hglt,
          by rw [hocc e, if_pos rfl], hmem_e⟩
    refine ⟨s', hrun, hlen, hglen, hE', hEx, hmem_e, hmemf, hbkt, hbktne,
      ?_, ?_, hkeysG, hkeysne, hocc, hInv'⟩
    · intro g2 h2 h3
      have h4 : g2 ≠ g0 := by
        intro hh
        apply h3
        rw [hh]
      rw [hG', if_neg h4, if_neg h2]
    · intro g0' hg0' b0' hb0'
      injection hg0' with hg0'
      subst hg0'
      rw [hb0] at hb0'
      injection hb0' with hb0'
      subst hb0'
      exact ⟨hbkt0, hbkt0ne⟩

/-! ### Inversion corollaries and drain lemmas -/

theorem backref_getE {s : State} {x : Nat} {g : Nat} {k : Int}
    (h : elemBackref s x = some (g, k)) :
    ∃ el, getE s x = some el ∧ el.group = some g ∧ el.index_in_group = k := by
  cases hE : getE s x with
  | none => simp [elemBackref, hE] at h
  | some el =>
    simp only [elemBackref, hE] at h
    cases hg : el.group with
    | none => rw [hg] at h; simp at h
    | some g0 =>
      rw [hg] at h
      simp only [Option.map_some'] at h
      injection h with h
      injection h with h1 h2
      subst h1
      subst h2
      exact ⟨el, rfl, hg, rfl⟩

theorem add_inversion {s s' : State} {g : Nat} {e : Nat} {k : Int} {u : Unit}
    (h : add_channel_elem s g e k = (.ok u, s')) :
    ∃ el gr, getE s e = some el ∧ getG s g = some gr ∧ el.group ≠ some g := by
  cases hE : getE s e with
  | none => simp [add_channel_elem, hE] at h
  | some el =>
    cases hG : getG s g with
    | none => simp [add_channel_elem, hE, hG] at h
    | some gr =>
      by_cases hne : el.group = some g
      · simp [add_channel_elem, hE, hG, hne] at h
      · exact ⟨el, gr, rfl, rfl, hne⟩

theorem add_preserves {s s' : State} {g : Nat} {e : Nat} {k : Int} {u : Unit}
    (hInv : InvM s) (h : add_channel_elem s g e k = (.ok u, s')) :
    InvM s' ∧ s'.elems.length = s.elems.length ∧
      s'.groups.length = s.groups.length := by
  obtain ⟨el, gr, hE, hG, hne⟩ := add_inversion h
  obtain ⟨s'', hrun, hlen, hglen, _, _, _, _, _, _, _, _, _, _, _, hInv'⟩ :=
    add_effect k hInv hE hG hne
  rw [hrun] at h
  injection h with _ h
  subst h
  exact ⟨hInv', hlen, hglen⟩

theorem remove_inversion {s s' : State} {e : Nat} {u : Unit}
    (h : remove_from_group s e = (.ok u, s')) :
    ∃ el g, getE s e = some el ∧ el.group = some g := by
  cases hE : getE s e with
  | none => simp [remove_from_group, hE] at h
  | some el =>
    cases hg : el.group with
    | none => simp [remove_from_group, hE, hg] at h
    | some g => exact ⟨el, g, rfl, hg⟩

theorem remove_preserves {s s' : State} {e : Nat} {u : Unit}
    (hInv : InvM s) (h : remove_from_group s e = (.ok u, s')) :
    InvM s' ∧ s'.elems.length = s.elems.length ∧
      s'.groups.length = s.groups.length := by
  obtain ⟨el, g, hE, hg⟩ := remove_inversion h
  obtain ⟨s'', gr, b, _, _, _, hrun, hlen, hglen, _, _, _, _, _, _, _, _, hInv'⟩ :=
    remove_effect hInv hE hg
  rw [hrun] at h
  injection h with _ h
  subst h
  exact ⟨hInv', hlen, hglen⟩

theorem lt_getG {s : State} {g : Nat} (h : g < s.groups.length) :
    ∃ gr, getG s g = some gr := by
  unfold getG
  cases hg : s.groups[g]? with
  | none =>
    rw [List.getElem?_eq_none_iff] at hg
    omega
  | some gr => exact ⟨gr, rfl⟩

/-- Under the invariant a bucket has no duplicate entries, so the tail of a
bucket no longer contains its head. -/
theorem bucket_head_not_in_tail {s : State} (hInv : InvM s) {g : Nat} {k : Int}
    {e : Nat} {rest : List Nat} (hb : bucketAt s g k = some (e :: rest)) :
    e ∉ rest := by
  have hbr := mem_backref hInv hb (List.mem_cons_self e rest)
  have hocc := inv_occ hInv e
  rw [hbr] at hocc
  simp at hocc
  obtain ⟨gr, hgr, hlk⟩ := bucketAt_some hb
  have h1 := count_le_groupOcc gr.channel_elems k e hlk
  have heta : (⟨gr.channel_elems⟩ : BaseChannelGroup) = gr := rfl
  rw [heta] at h1
  have h2 := groupOcc_le_occCount e hgr
  intro hmem
  have h3 : 2 ≤ (e :: rest).count e := by
    have := List.count_pos_iff.mpr hmem
    rw [List.count_cons_self]
    omega
  omega

/-- Moving every element of a bucket of `gs` into bucket `j` of a different
group `gt` (the inner loop of `union_two_groups` and of
`_split_a_new_group`): the source bucket drains to `[]`, each moved element
is re-registered at `(gt, j)`, everything else is framed. -/
theorem addAll_drain {gt gs : Nat} (hne : gt ≠ gs) (ks j : Int) :
    ∀ (b : List Nat) (s : State), InvM s →
    bucketAt s gs ks = some b →
    gt < s.groups.length →
    ∃ s', addAll gt j s b = (.ok (), s') ∧ InvM s' ∧
      s'.elems.length = s.elems.length ∧
      s'.groups.length = s.groups.length ∧
      bucketAt s' gs ks = some [] ∧
      (∀ k2, k2 ≠ ks → bucketAt s' gs k2 = bucketAt s gs k2) ∧
      keysOf s' gs = keysOf s gs ∧
      (∀ g2, g2 ≠ gs → g2 ≠ gt → getG s' g2 = getG s g2) ∧
      (∀ x, x ∉ b → getE s' x = getE s x) ∧
      (∀ x, x ∉ b → ∀ g2 k2, memBucketB s' g2 k2 x = memBucketB s g2 k2 x) ∧
      (∀ x ∈ b, elemBackref s' x = some (gt, j)) ∧
      (j ∈ keysOf s gt → keysOf s' gt = keysOf s gt)
  | [], s, hInv, hb, hlt =>
    ⟨s, rfl, hInv, rfl, rfl, hb, fun _ _ => rfl, rfl, fun _ _ _ => rfl,
      fun _ _ => rfl, fun _ _ _ _ => rfl, fun x hx => absurd hx (List.not_mem_nil x),
      fun _ => rfl⟩
  | e :: rest, s, hInv, hb, hlt => by
    have hbr := mem_backref hInv hb (List.mem_cons_self e rest)
    obtain ⟨el, hE, hgrp, hidx⟩ := backref_getE hbr
    have hnotin : e ∉ rest := bucket_head_not_in_tail hInv hb
    have hnegrp : el.group ≠ some gt := by
      rw [hgrp]
      intro hh
      injection hh with hh
      exact hne hh.symm
    obtain ⟨grt, hgrt⟩ := lt_getG hlt
    obtain ⟨s1, hrun1, hlen1, hglen1, hE1, hEx1, hmem1, hmemf1, hbkt1, hbktne1,
      hGfr1, hold1, hkeysG1, hkeysne1, hocc1, hInv1⟩ :=
      add_effect j hInv hE hgrt hnegrp
    obtain ⟨hb1, hbne1⟩ := hold1 gs hgrp (e :: rest) (by rw [hidx]; exact hb)
    rw [hidx] at hb1 hbne1
    have hb1' : bucketAt s1 gs ks = some rest := by
      rw [hb1, List.erase_cons_head]
    obtain ⟨s2, hrun2, hInv2, hlen2, hglen2, hbkt2, hbktne2, hkeys2, hG2,
      hget2, hmemf2, hreg2, hkeysgt2⟩ :=
      addAll_drain hne ks j rest s1 hInv1 hb1' (by rw [hglen1]; exact hlt)
    refine ⟨s2, ?_, hInv2, by rw [hlen2, hlen1], by rw [hglen2, hglen1],
      hbkt2, ?_, ?_, ?_, ?_, ?_, ?_, ?_⟩
    · simp only [addAll, hrun1, hrun2]
    · intro k2 h2
      rw [hbktne2 k2 h2, hbne1 k2 h2]
    · rw [hkeys2, hkeysne1 gs (Ne.symm hne)]
    · intro g2 h2 h3
      have h4 : el.group ≠ some g2 := by
        rw [hgrp]
        intro hh
        injection hh with hh
        exact h2 hh.symm
      rw [hG2 g2 h2 h3, hGfr1 g2 h3 h4]
    · intro x hx
      have hx1 : x ≠ e := fun hh => hx (hh ▸ List.mem_cons_self e rest)
      have hx2 : x ∉ rest := fun hh => hx (List.mem_cons_of_mem e hh)
      rw [hget2 x hx2, hEx1 x hx1]
    · intro x hx g2 k2
      have hx1 : x ≠ e := fun hh => hx (hh ▸ List.mem_cons_self e rest)
      have hx2 : x ∉ rest := fun hh => hx (List.mem_cons_of_mem e hh)
      rw [hmemf2 x hx2 g2 k2, hmemf1 x hx1 g2 k2]
    · intro x hx
      rcases List.mem_cons.mp hx with hh | hh
      · subst hh
        have hgetE2 : getE s2 x = getE s1 x := hget2 x hnotin
        rw [elemBackref_congr hgetE2]
        simp [elemBackref, hE1]
      · exact hreg2 x hh
    · intro hj
      have hk1 : keysOf s1 gt = keysOf s gt := by rw [hkeysG1, if_pos hj]
      have hj1 : j ∈ keysOf s1 gt := by rw [hk1]; exact hj
      rw [hkeysgt2 hj1, hk1]

/-! ### Pop, push and the union loops -/

theorem pop_empty_preserves {s : State} {g : Nat} {gr : BaseChannelGroup} {i : Int}
    (hInv : InvM s) (hgr : getG s g = some gr)
    (hb : dLookup gr.channel_elems i = some []) :
    InvM (modG s g (dPop gr.channel_elems i)) := by
  have hglt := getG_some_lt hgr
  set sP : State := modG s g (dPop gr.channel_elems i) with hsP
  have hGP : ∀ g2, getG sP g2 =
      if g2 = g then some ⟨dPop gr.channel_elems i⟩ else getG s g2 := by
    intro g2
    rw [hsP, getG_modG _ _ hglt]
  have hbrP : ∀ x, elemBackref sP x = elemBackref s x := by
    intro x
    exact elemBackref_congr (by rw [hsP, getE_modG])
  refine ⟨?_, ?_, ?_⟩
  · intro gr' hmem
    have hmem' : gr' ∈ s.groups.set g ⟨dPop gr.channel_elems i⟩ := hmem
    refine keysNodup_set g _ hInv.1 ?_ gr' hmem'
    rw [dKeys_dPop]
    exact (inv_keys_nodup hInv hgr).erase i
  · intro x
    have h2 := occCount_modG (dPop gr.channel_elems i) x hgr
    rw [← hsP] at h2
    have h3 := groupOcc_dPop_empty gr.channel_elems i x hb
    have heta : (⟨gr.channel_elems⟩ : BaseChannelGroup) = gr := rfl
    rw [heta] at h3
    rw [hbrP x]
    have h0 := inv_occ hInv x
    omega
  · intro x g2 k2 hbx
    rw [hbrP x] at hbx
    obtain ⟨hlt2, hm2⟩ := inv_home hInv hbx
    refine ⟨by rw [hsP, groups_length_modG]; exact hlt2, ?_⟩
    by_cases hg2 : g2 = g
    · subst hg2
      by_cases hk2 : k2 = i
      · subst hk2
        exfalso
        obtain ⟨bb, hbb, hxb⟩ := memBucketB_iff.mp hm2
        rw [bucketAt_def hgr, hb] at hbb
        injection hbb with hbb
        subst hbb
        exact List.not_mem_nil x hxb
      · have hfr : bucketAt sP g2 k2 = bucketAt s g2 k2 := by
          rw [bucketAt_def (show getG sP g2 = some ⟨dPop gr.channel_elems i⟩ by
            rw [hGP]; simp), dLookup_dPop_ne _ hk2, bucketAt_def hgr]
        rw [memBucketB_congr hfr]
        exact hm2
    · have hfr : bucketAt sP g2 k2 = bucketAt s g2 k2 := by
        unfold bucketAt
        rw [hGP, if_neg hg2]
      rw [memBucketB_congr hfr]
      exact hm2

theorem getG_push {s : State} {g : Nat} (l : List BaseChannelGroup)
    (h : g < s.groups.length) :
    ({ s with groups := s.groups ++ l } : State).groups[g]? = getG s g := by
  simp [getG, List.getElem?_append_left h]

theorem push_group_inv {s : State} (hInv : InvM s) :
    InvM { s with groups := s.groups ++ [⟨([] : Dict)⟩] } := by
  set sP : State := { s with groups := s.groups ++ [⟨([] : Dict)⟩] } with hsP
  have hbrP : ∀ x, elemBackref sP x = elemBackref s x := by
    intro x
    exact elemBackref_congr rfl
  have hoccP : ∀ x, occCount sP x = occCount s x := by
    intro x
    simp [hsP, occCount, List.map_append, groupOcc]
  refine ⟨?_, ?_, ?_⟩
  · intro gr' hmem
    rw [hsP] at hmem
    simp only [List.mem_append, List.mem_singleton] at hmem
    rcases hmem with h | h
    · exact hInv.1 gr' h
    · subst h
      simp [dKeys]
  · intro x
    rw [hoccP x, hbrP x]
    exact inv_occ hInv x
  · intro x g2 k2 hbx
    rw [hbrP x] at hbx
    obtain ⟨hlt2, hm2⟩ := inv_home hInv hbx
    refine ⟨?_, ?_⟩
    · rw [hsP]
      simp only [List.length_append, List.length_singleton]
      omega
    · have hfr : bucketAt sP g2 k2 = bucketAt s g2 k2 := by
        unfold bucketAt getG
        rw [show sP.groups[g2]? = getG s g2 from getG_push _ hlt2]
        rfl
      rw [memBucketB_congr hfr]
      exact hm2

theorem unionLoop_inv {g1 g2 : Nat} (hne : g1 ≠ g2) :
    ∀ (ks : List Int) (s s' : State), InvM s → g1 < s.groups.length →
    unionLoop g1 g2 s ks = (.ok (), s') →
    InvM s' ∧ s'.elems.length = s.elems.length ∧
      s'.groups.length = s.groups.length
  | [], s, s', hInv, _, h => by
    simp only [unionLoop] at h
    injection h with _ h
    subst h
    exact ⟨hInv, rfl, rfl⟩
  | i :: rest, s, s', hInv, hlt, h => by
    simp only [unionLoop] at h
    cases hb : bucketAt s g2 i with
    | none => rw [hb] at h; simp at h
    | some b =>
      rw [hb] at h
      obtain ⟨s1, hrun1, hInv1, hlen1, hglen1, _, _, _, _, _, _, _, _⟩ :=
        addAll_drain hne i i b s hInv hb hlt
      simp only [hrun1] at h
      obtain ⟨hInv2, hlen2, hglen2⟩ :=
        unionLoop_inv hne rest s1 s' hInv1 (by rw [hglen1]; exact hlt) h
      exact ⟨hInv2, by rw [hlen2, hlen1], by rw [hglen2, hglen1]⟩

theorem unionLoop_effect {g1 g2 : Nat} (hne : g1 ≠ g2) :
    ∀ (ks : List Int) (s : State), InvM s → g1 < s.groups.length →
    (∀ i ∈ ks, ∃ b, bucketAt s g2 i = some b) →
    ∃ s', unionLoop g1 g2 s ks = (.ok (), s') ∧ InvM s' ∧
      s'.elems.length = s.elems.length ∧
      s'.groups.length = s.groups.length ∧
      keysOf s' g2 = keysOf s g2 ∧
      (∀ i ∈ ks, bucketAt s' g2 i = some []) ∧
      (∀ i, i ∉ ks → bucketAt s' g2 i = bucketAt s g2 i)
  | [], s, hInv, _, _ =>
    ⟨s, rfl, hInv, rfl, rfl, rfl, by simp, fun _ _ => rfl⟩
  | i :: rest, s, hInv, hlt, hex => by
    obtain ⟨b, hb⟩ := hex i (List.mem_cons_self i rest)
    obtain ⟨s1, hrun1, hInv1, hlen1, hglen1, hbkt1, hbktne1, hkeys1, _, _, _, _, _⟩ :=
      addAll_drain hne i i b s hInv hb hlt
    have hex1 : ∀ i2 ∈ rest, ∃ b2, bucketAt s1 g2 i2 = some b2 := by
      intro i2 hi2
      by_cases hii : i2 = i
      · subst hii
        exact ⟨[], hbkt1⟩
      · rw [hbktne1 i2 hii]
        exact hex i2 (List.mem_cons_of_mem i hi2)
    obtain ⟨s2, hrun2, hInv2, hlen2, hglen2, hkeys2, hbkts2, hfr2⟩ :=
      unionLoop_effect hne rest s1 hInv1 (by rw [hglen1]; exact hlt) hex1
    refine ⟨s2, ?_, hInv2, by rw [hlen2, hlen1], by rw [hglen2, hglen1],
      by rw [hkeys2, hkeys1], ?_, ?_⟩
    · simp only [unionLoop, hb, hrun1, hrun2]
    · intro i2 hi2
      rcases List.mem_cons.mp hi2 with hh | hh
      · subst hh
        by_cases hii : i2 ∈ rest
        · exact hbkts2 i2 hii
        · rw [hfr2 i2 hii]
          exact hbkt1
      · exact hbkts2 i2 hh
    · intro i2 hi2
      have h1 : i2 ≠ i := fun hh => hi2 (hh ▸ List.mem_cons_self i rest)
      have h2 : i2 ∉ rest := fun hh => hi2 (List.mem_cons_of_mem i hh)
      rw [hfr2 i2 h2, hbktne1 i2 h1]

theorem union_two_inv {s s' : State} {g1 g2 res : Nat}
    (hInv : InvM s) (h : union_two_groups s g1 g2 = (.ok res, s')) :
    InvM s' ∧ s'.elems.length = s.elems.length ∧
      s'.groups.length = s.groups.length := by
  unfold union_two_groups at h
  by_cases heq : g1 = g2
  · rw [if_pos heq] at h
    injection h with _ h
    subst h
    exact ⟨hInv, rfl, rfl⟩
  · rw [if_neg heq] at h
    cases hg1 : getG s g1 with
    | none =>
      cases hg2 : getG s g2 with
      | none => simp [hg1, hg2] at h
      | some gr2 => simp [hg1, hg2] at h
    | some gr1 =>
      cases hg2 : getG s g2 with
      | none => simp [hg1, hg2] at h
      | some gr2 =>
        simp only [hg1, hg2] at h
        by_cases hlen : gr1.channel_elems.length = gr2.channel_elems.length
        · simp only [if_pos hlen] at h
          cases hu : unionLoop g1 g2 s (dKeys gr1.channel_elems) with
          | mk r s1 =>
            cases r with
            | ok u =>
              simp only [hu] at h
              injection h with h1 h2
              subst h2
              cases u
              exact unionLoop_inv heq _ s _ hInv (getG_some_lt hg1) hu
            | error m =>
              simp [hu] at h
        · simp only [if_neg hlen] at h
          simp at h

theorem sum_pos_mem {α : Type} (l : List α) (f : α → Nat)
    (h : 0 < (l.map f).sum) : ∃ a ∈ l, 0 < f a := by
  induction l with
  | nil => simp at h
  | cons a l ih =>
    simp only [List.map_cons, List.sum_cons] at h
    by_cases ha : 0 < f a
    · exact ⟨a, List.mem_cons_self a l, ha⟩
    · have : 0 < (l.map f).sum := by omega
      obtain ⟨b, hb, hfb⟩ := ih this
      exact ⟨b, List.mem_cons_of_mem a hb, hfb⟩

theorem occ_pos_mem {s : State} {x : Nat} (h : 0 < occCount s x) :
    ∃ gr ∈ s.groups, ∃ p ∈ gr.channel_elems, x ∈ p.2 := by
  obtain ⟨gr, hgr, hpos⟩ := sum_pos_mem s.groups _ h
  obtain ⟨p, hp, hpos2⟩ :=
    sum_pos_mem gr.channel_elems (fun p => p.2.count x) (by
      simpa [groupOcc] using hpos)
  exact ⟨gr, hgr, p, hp, List.count_pos_iff.mp hpos2⟩

theorem invM_of_check {s : State} (h : invCheckB s = true) : InvM s := by
  unfold invCheckB at h
  rw [Bool.and_eq_true, Bool.and_eq_true] at h
  obtain ⟨⟨h1, h2⟩, h3⟩ := h
  rw [List.all_eq_true] at h1 h2 h3
  refine ⟨?_, ?_, ?_⟩
  · intro gr hmem
    exact of_decide_eq_true (h1 gr hmem)
  · intro e
    by_cases he : e < s.elems.length
    · have h4 := h3 e (List.mem_range.mpr he)
      rw [Bool.and_eq_true] at h4
      simpa using h4.1
    · have hbr : elemBackref s e = none := by
        unfold elemBackref getE
        rw [List.getElem?_eq_none (Nat.le_of_not_lt he)]
      rw [hbr]
      simp only [Option.isSome_none, Bool.false_eq_true, if_false]
      by_contra hocc
      have hpos : 0 < occCount s e := Nat.pos_of_ne_zero hocc
      obtain ⟨gr, hgr, p, hp, hmem⟩ := occ_pos_mem hpos
      have h5 := h2 gr hgr
      rw [List.all_eq_true] at h5
      have h6 := h5 p hp
      rw [List.all_eq_true] at h6
      exact absurd (of_decide_eq_true (h6 e hmem)) he
  · intro e g k hbk
    have he : e < s.elems.length := by
      obtain ⟨el, hE, _, _⟩ := backref_getE hbk
      exact getE_some_lt hE
    have h4 := h3 e (List.mem_range.mpr he)
    rw [Bool.and_eq_true] at h4
    have h5 := h4.2
    simp only [hbk] at h5
    rw [Bool.and_eq_true] at h5
    exact ⟨of_decide_eq_true h5.1, h5.2⟩

/-- C10: when two distinct well-formed groups `g1`, `g2` have the same
contiguous bucket-key range `0..n-1` (the spec's compactness invariant; it
makes "equal bucket counts" mean equal key sets), `union_two_groups`
succeeds returning `g1`, and afterwards the discarded group `g2` still has
exactly its old bucket keys — `len(g2)` is unchanged — but every one of its
buckets is an empty list: union moves the elements out without deleting or
re-indexing `g2`'s buckets. -/
theorem c10_union_empties_second_group
    (s : State) (g1 g2 n : Nat) (gr1 gr2 : BaseChannelGroup)
    (hInv : InvM s) (hne : g1 ≠ g2)
    (hg1 : getG s g1 = some gr1) (hg2 : getG s g2 = some gr2)
    (hk1 : dKeys gr1.channel_elems = (List.range n).map Int.ofNat)
    (hk2 : dKeys gr2.channel_elems = (List.range n).map Int.ofNat) :
    ∃ s', union_two_groups s g1 g2 = (.ok g1, s') ∧
      keysOf s' g2 = keysOf s g2 ∧
      gr1.channel_elems.length = gr2.channel_elems.length ∧
      (∀ k ∈ keysOf s g2, bucketAt s' g2 k = some []) := by
  have hlen : gr1.channel_elems.length = gr2.channel_elems.length := by
    have e1 : gr1.channel_elems.length = (dKeys gr1.channel_elems).length := by
      simp [dKeys]
    have e2 : gr2.channel_elems.length = (dKeys gr2.channel_elems).length := by
      simp [dKeys]
    rw [e1, e2, hk1, hk2]
  have hex : ∀ i ∈ dKeys gr1.channel_elems, ∃ b, bucketAt s g2 i = some b := by
    intro i hi
    rw [hk1, ← hk2] at hi
    obtain ⟨b, hb⟩ := mem_keys_dLookup hi
    exact ⟨b, by rw [bucketAt_def hg2]; exact hb⟩
  obtain ⟨s', hrun, hInv', hlen', hglen', hkeys', hbkts', hfr'⟩ :=
    unionLoop_effect hne (dKeys gr1.channel_elems) s hInv (getG_some_lt hg1) hex
  refine ⟨s', ?_, hkeys', hlen, ?_⟩
  · unfold union_two_groups
    rw [if_neg hne]
    simp only [hg1, hg2, if_pos hlen, hrun]
  · intro k hk
    apply hbkts'
    rw [hk1, ← hk2]
    rw [keysOf_def hg2] at hk
    exact hk

/-- Witness for C10 at the two fresh length-3 tensors: the donor group 1
keeps its keys `[0, 1, 2]` and all three of its buckets end up empty. -/
theorem c10_union_witness :
    (union_two_groups stTwoLen3 0 1).1 = .ok 0 ∧
    keysOf (union_two_groups stTwoLen3 0 1).2 1 = [0, 1, 2] ∧
    bucketAt (union_two_groups stTwoLen3 0 1).2 1 0 = some [] ∧
    bucketAt (union_two_groups stTwoLen3 0 1).2 1 1 = some [] ∧
    bucketAt (union_two_groups stTwoLen3 0 1).2 1 2 = some [] := by
  obtain ⟨s', hrun, hkeys, _, hbkts⟩ :=
    c10_union_empties_second_group stTwoLen3 0 1 3
      ⟨[(0, [0]), (1, [1]), (2, [2])]⟩ ⟨[(0, [3]), (1, [4]), (2, [5])]⟩
      (invM_of_check (by decide)) (by decide) (by decide) (by decide)
      (by decide) (by decide)
  rw [hrun]
  refine ⟨rfl, ?_, ?_, ?_, ?_⟩
  · rw [hkeys]; decide
  · exact hbkts 0 (by decide)
  · exact hbkts 1 (by decide)
  · exact hbkts 2 (by decide)

/-! ### Reindex and split: invariant preservation -/

/-- Inner loop of `_reindex`, branch `j < i`: moving the whole (snapshot of
the) bucket `i` of group `g` down to key `j ≠ i` succeeds, preserves the
invariant and drains bucket `i` to `[]`. -/
theorem reindexMove_drain {g : Nat} {i j : Int} (hne : j ≠ i) :
    ∀ (b : List Nat) (s : State), InvM s →
    bucketAt s g i = some b →
    ∃ s', reindexMove g j s b = (.ok (), s') ∧ InvM s' ∧
      s'.elems.length = s.elems.length ∧
      s'.groups.length = s.groups.length ∧
      bucketAt s' g i = some []
  | [], s, hInv, hb => ⟨s, rfl, hInv, rfl, rfl, hb⟩
  | e :: rest, s, hInv, hb => by
    have hbr := mem_backref hInv hb (List.mem_cons_self e rest)
    obtain ⟨el, hE, hgrp, hidx⟩ := backref_getE hbr
    obtain ⟨s1, gr, b0, hgr, hlk, heb, hrun1, hlen1, hglen1, hE1, hEx1, hG1,
      hbkt1, hbktne1, hkeys1, hmemf1, hocc1, hInv1⟩ := remove_effect hInv hE hgrp
    have hb2 : dLookup gr.channel_elems i = some (e :: rest) := by
      rw [← bucketAt_def hgr]
      exact hb
    rw [hidx] at hlk
    rw [hlk] at hb2
    have hb0 : b0 = e :: rest := Option.some.inj hb2
    have hbkt1' : bucketAt s1 g i = some rest := by
      rw [← hidx, hbkt1, hb0, List.erase_cons_head]
    have hE1' : getE s1 e = some { el with group := none, index_in_group := -1 } :=
      hE1
    have hglt : g < s1.groups.length := by
      rw [hglen1]
      exact getG_some_lt hgr
    obtain ⟨gr1, hgr1⟩ := lt_getG hglt
    have hne1 : ({ el with group := none, index_in_group := -1 } :
        ChannelElement).group ≠ some g := by simp
    obtain ⟨s2, hrun2, hlen2, hglen2, hE2, hEx2, hm2, hmemf2, hbkt2, hbktne2,
      hGfr2, hold2, hkg2, hkne2, hocc2, hInv2⟩ := add_effect j hInv1 hE1' hgr1 hne1
    have hbkt2' : bucketAt s2 g i = some rest := by
      rw [hbktne2 i (Ne.symm hne)]
      exact hbkt1'
    obtain ⟨s3, hrun3, hInv3, hlen3, hglen3, hbkt3⟩ :=
      reindexMove_drain hne rest s2 hInv2 hbkt2'
    refine ⟨s3, ?_, hInv3, by rw [hlen3, hlen2, hlen1],
      by rw [hglen3, hglen2, hglen1], hbkt3⟩
    simp only [reindexMove, hE]
    rw [if_pos (show el.group.isSome = true by simp [hgrp])]
    simp only [hrun1, hrun2, hrun3]

/-- `_reindex`'s outer loop preserves the invariant and the arena sizes. -/
theorem reindexLoop_inv {g : Nat} :
    ∀ (ks : List Int) (j : Int) (s s' : State) (u : Unit), InvM s →
    reindexLoop g s ks j = (.ok u, s') →
    InvM s' ∧ s'.elems.length = s.elems.length ∧
      s'.groups.length = s.groups.length
  | [], _, s, s', _, hInv, h => by
    simp only [reindexLoop] at h
    injection h with _ h
    subst h
    exact ⟨hInv, rfl, rfl⟩
  | i :: rest, j, s, s', u, hInv, h => by
    simp only [reindexLoop] at h
    cases hb : bucketAt s g i with
    | none =>
      rw [hb] at h
      simp at h
    | some b =>
      simp only [hb] at h
      by_cases hlen0 : b.length = 0
      · rw [if_pos hlen0] at h
        obtain ⟨gr, hgr, hlk⟩ := bucketAt_some hb
        simp only [hgr] at h
        have hbnil : b = [] := List.eq_nil_of_length_eq_zero hlen0
        subst hbnil
        have hInvP := pop_empty_preserves hInv hgr hlk
        obtain ⟨hInv2, hlen2, hglen2⟩ :=
          reindexLoop_inv rest j _ s' u hInvP h
        refine ⟨hInv2, ?_, ?_⟩
        · rw [hlen2, elems_length_modG]
        · rw [hglen2, groups_length_modG]
      · rw [if_neg hlen0] at h
        by_cases hji : j < i
        · rw [if_pos hji] at h
          obtain ⟨s1, hrun1, hInv1, hlen1, hglen1, hbkt1⟩ :=
            reindexMove_drain (ne_of_lt hji) b s hInv hb
          simp only [hrun1] at h
          have hglt : g < s1.groups.length := by
            rw [hglen1]
            obtain ⟨gr, hgr, _⟩ := bucketAt_some hb
            exact getG_some_lt hgr
          obtain ⟨gr1, hgr1⟩ := lt_getG hglt
          simp only [hgr1] at h
          have hlk1 : dLookup gr1.channel_elems i = some [] := by
            rw [← bucketAt_def hgr1]
            exact hbkt1
          have hInvP := pop_empty_preserves hInv1 hgr1 hlk1
          obtain ⟨hInv2, hlen2, hglen2⟩ :=
            reindexLoop_inv rest (j + 1) _ s' u hInvP h
          refine ⟨hInv2, ?_, ?_⟩
          · rw [hlen2, elems_length_modG, hlen1]
          · rw [hglen2, groups_length_modG, hglen1]
        · rw [if_neg hji] at h
          by_cases hjeq : j = i
          · rw [if_pos hjeq] at h
            exact reindexLoop_inv rest j s s' u hInv h
          · rw [if_neg hjeq] at h
            simp at h

theorem reindexGroup_inv {s s' : State} {g : Nat} {u : Unit}
    (hInv : InvM s) (h : reindexGroup s g = (.ok u, s')) :
    InvM s' ∧ s'.elems.length = s.elems.length ∧
      s'.groups.length = s.groups.length := by
  unfold reindexGroup at h
  cases hg : getG s g with
  | none =>
    rw [hg] at h
    simp at h
  | some gr =>
    simp only [hg] at h
    exact reindexLoop_inv _ _ s s' u hInv h

/-- The bucket-moving loop of `_split_a_new_group` preserves the invariant
and the arena sizes, provided the target group `ngr` is distinct from the
source group `g` and exists. -/
theorem splitMoveLoop_inv {g ngr : Nat} (hne : ngr ≠ g) :
    ∀ (indexes : List Int) (j : Int) (s s' : State) (u : Unit), InvM s →
    ngr < s.groups.length →
    splitMoveLoop g ngr s indexes j = (.ok u, s') →
    InvM s' ∧ s'.elems.length = s.elems.length ∧
      s'.groups.length = s.groups.length
  | [], _, s, s', _, hInv, _, h => by
    simp only [splitMoveLoop] at h
    injection h with _ h
    subst h
    exact ⟨hInv, rfl, rfl⟩
  | i :: rest, j, s, s', u, hInv, hlt, h => by
    simp only [splitMoveLoop] at h
    cases hb : bucketAt s g i with
    | none =>
      rw [hb] at h
      simp at h
    | some b =>
      simp only [hb] at h
      obtain ⟨s1, hrun1, hInv1, hlen1, hglen1, hbkt1, hbktne1, hkeys1, hG1,
        hE1, hm1, hreg1, hkg1⟩ := addAll_drain hne i j b s hInv hb hlt
      simp only [hrun1] at h
      have hgltg : g < s1.groups.length := by
        rw [hglen1]
        obtain ⟨gr0, hgr0, _⟩ := bucketAt_some hb
        exact getG_some_lt hgr0
      obtain ⟨gr1, hgr1⟩ := lt_getG hgltg
      simp only [hgr1] at h
      have hlk1 : dLookup gr1.channel_elems i = some [] := by
        rw [← bucketAt_def hgr1]
        exact hbkt1
      have hInvP := pop_empty_preserves hInv1 hgr1 hlk1
      obtain ⟨hInv2, hlen2, hglen2⟩ :=
        splitMoveLoop_inv hne rest (j + 1) _ s' u hInvP
          (by rw [groups_length_modG, hglen1]; exact hlt) h
      refine ⟨hInv2, ?_, ?_⟩
      · rw [hlen2, elems_length_modG, hlen1]
      · rw [hglen2, groups_length_modG, hglen1]

/-- `_split_a_new_group` preserves the invariant, keeps the element arena
and grows the group arena by exactly the freshly created group. -/
theorem split_a_new_group_inv {s s' : State} {g : Nat} {indexes : List Int}
    {ng : Nat} (hInv : InvM s) (hlt : g < s.groups.length)
    (h : split_a_new_group s g indexes = (.ok ng, s')) :
    InvM s' ∧ s'.elems.length = s.elems.length ∧
      s'.groups.length = s.groups.length + 1 := by
  unfold split_a_new_group at h
  have hInv0 : InvM { s with groups := s.groups ++ [⟨([] : Dict)⟩] } :=
    push_group_inv hInv
  have hne : s.groups.length ≠ g := Nat.ne_of_gt hlt
  cases hsm : splitMoveLoop g s.groups.length
      { s with groups := s.groups ++ [⟨([] : Dict)⟩] } indexes 0 with
  | mk r s1 =>
    simp only [hsm] at h
    cases r with
    | error m => simp at h
    | ok u =>
      obtain ⟨hInv1, hlen1, hglen1⟩ :=
        splitMoveLoop_inv hne indexes 0 _ s1 u hInv0
          (by simp) hsm
      cases hr : reindexGroup s1 g with
      | mk r2 s2 =>
        simp only [hr] at h
        cases r2 with
        | error m => simp at h
        | ok u2 =>
          injection h with h1 h2
          subst h2
          obtain ⟨hInv2, hlen2, hglen2⟩ := reindexGroup_inv hInv1 hr
          refine ⟨hInv2, ?_, ?_⟩
          · rw [hlen2, hlen1]
          · rw [hglen2, hglen1]
            simp

theorem splitGroupLoop_inv {g : Nat} :
    ∀ (nums : List Nat) (s s' : State) (res : List Nat), InvM s →
    g < s.groups.length →
    splitGroupLoop g s nums = (.ok res, s') →
    InvM s' ∧ s'.elems.length = s.elems.length ∧
      s.groups.length ≤ s'.groups.length
  | [], s, s', res, hInv, _, h => by
    simp only [splitGroupLoop] at h
    injection h with _ h
    subst h
    exact ⟨hInv, rfl, Nat.le_refl _⟩
  | num :: rest, s, s', res, hInv, hlt, h => by
    simp only [splitGroupLoop] at h
    cases hsp : split_a_new_group s g ((List.range num).map Int.ofNat) with
    | mk r s1 =>
      simp only [hsp] at h
      cases r with
      | error m => simp at h
      | ok ng =>
        obtain ⟨hInv1, hlen1, hglen1⟩ := split_a_new_group_inv hInv hlt hsp
        cases hrec : splitGroupLoop g s1 rest with
        | mk r2 s2 =>
          simp only [hrec] at h
          cases r2 with
          | error m => simp at h
          | ok ngs =>
            injection h with h1 h2
            subst h2
            obtain ⟨hInv2, hlen2, hglen2⟩ :=
              splitGroupLoop_inv rest s1 _ ngs hInv1 (by omega) hrec
            exact ⟨hInv2, by rw [hlen2, hlen1], by omega⟩

theorem split_group_inv {s s' : State} {g : Nat} {nums : List Nat}
    {res : List Nat} (hInv : InvM s)
    (h : split_group s g nums = (.ok res, s')) :
    InvM s' ∧ s'.elems.length = s.elems.length := by
  unfold split_group at h
  by_cases h1 : nums.length = 1
  · rw [if_pos h1] at h
    injection h with _ h2
    subst h2
    exact ⟨hInv, rfl⟩
  · rw [if_neg h1] at h
    cases hg : getG s g with
    | none =>
      rw [hg] at h
      simp at h
    | some gr =>
      simp only [hg] at h
      by_cases h2 : nums.sum = gr.channel_elems.length
      · rw [if_pos h2] at h
        obtain ⟨hInv2, hlen2, _⟩ :=
          splitGroupLoop_inv nums s s' res hInv (getG_some_lt hg) h
        exact ⟨hInv2, hlen2⟩
      · rw [if_neg h2] at h
        simp at h

/-- Every successful public operation preserves the invariant. -/
theorem stepOp_inv {s s' : State} {op : Op} {u : Unit}
    (hInv : InvM s) (h : stepOp s op = (.ok u, s')) : InvM s' := by
  cases op with
  | addElem g e k => exact (add_preserves hInv h).1
  | removeElem e => exact (remove_preserves hInv h).1
  | unionTwo g1 g2 =>
    simp only [stepOp] at h
    cases hu : union_two_groups s g1 g2 with
    | mk r s1 =>
      simp only [hu] at h
      cases r with
      | error m => simp at h
      | ok res =>
        injection h with h1 h2
        subst h2
        exact (union_two_inv hInv hu).1
  | splitG g nums =>
    simp only [stepOp] at h
    cases hu : split_group s g nums with
    | mk r s1 =>
      simp only [hu] at h
      cases r with
      | error m => simp at h
      | ok res =>
        injection h with h1 h2
        subst h2
        exact (split_group_inv hInv hu).1

theorem runOps_inv :
    ∀ (ops : List Op) (s s' : State), InvM s → runOps s ops = some s' → InvM s'
  | [], s, s', hInv, h => by
    simp only [runOps] at h
    injection h with h
    subst h
    exact hInv
  | op :: rest, s, s', hInv, h => by
    simp only [runOps] at h
    cases hst : stepOp s op with
    | mk r s1 =>
      simp only [hst] at h
      cases r with
      | error m => simp at h
      | ok u => exact runOps_inv rest s1 s' (stepOp_inv hInv hst) h

/-- The state right after `ChannelTensor.__init__` allocates its fresh
(unowned) elements and its fresh empty group satisfies the invariant. -/
theorem ctor_base_inv {s : State} (n : Nat) (hInv : InvM s) :
    InvM ({ elems := s.elems ++ (List.range n).map
              (fun i => { index_in_channel_tensor := i, group := none, index_in_group := -1 }),
            groups := s.groups ++ [⟨([] : Dict)⟩] } : State) := by
  set sP : State := { elems := s.elems ++ (List.range n).map
                        (fun i => { index_in_channel_tensor := i, group := none, index_in_group := -1 }),
                      groups := s.groups ++ [⟨([] : Dict)⟩] } with hsP
  have hbrP : ∀ x, elemBackref sP x = elemBackref s x := by
    intro x
    by_cases hx : x < s.elems.length
    · exact elemBackref_congr (by
        unfold getE
        rw [hsP]
        exact List.getElem?_append_left hx)
    · have h1 : elemBackref s x = none := by
        unfold elemBackref getE
        rw [List.getElem?_eq_none (Nat.le_of_not_lt hx)]
      have h2 : ∀ el, getE sP x = some el → el.group = none := by
        intro el hel
        unfold getE at hel
        rw [hsP] at hel
        rw [List.getElem?_append_right (Nat.le_of_not_lt hx),
          List.getElem?_map] at hel
        cases hr : (List.range n)[x - s.elems.length]? with
        | none => rw [hr] at hel; simp at hel
        | some i =>
          rw [hr] at hel
          have h3 : some ({ index_in_channel_tensor := i, group := none, index_in_group := -1 } : ChannelElement) = some el := hel
          injection h3 with h3
          rw [← h3]
      rw [h1]
      unfold elemBackref
      cases hel : getE sP x with
      | none => rfl
      | some el => simp [h2 el hel]
  have hoccP : ∀ x, occCount sP x = occCount s x := by
    intro x
    rw [hsP]
    simp [occCount, List.map_append, groupOcc]
  refine ⟨?_, ?_, ?_⟩
  · intro gr' hmem
    rw [hsP] at hmem
    simp only [List.mem_append, List.mem_singleton] at hmem
    rcases hmem with hh | hh
    · exact hInv.1 gr' hh
    · subst hh
      simp [dKeys]
  · intro x
    rw [hoccP x, hbrP x]
    exact inv_occ hInv x
  · intro x g2 k2 hbx
    rw [hbrP x] at hbx
    obtain ⟨hlt2, hm2⟩ := inv_home hInv hbx
    refine ⟨?_, ?_⟩
    · rw [hsP]
      simp only [List.length_append, List.length_singleton]
      omega
    · have hfr : bucketAt sP g2 k2 = bucketAt s g2 k2 := by
        unfold bucketAt getG
        rw [hsP]
        rw [show (s.groups ++ [(⟨([] : Dict)⟩ : BaseChannelGroup)])[g2]? =
          s.groups[g2]? from List.getElem?_append_left hlt2]
      rw [memBucketB_congr hfr]
      exact hm2

theorem ctorLoop_inv {g : Nat} :
    ∀ (es : List Nat) (s s' : State) (u : Unit), InvM s →
    ctorLoop g s es = (.ok u, s') → InvM s'
  | [], s, s', _, hInv, h => by
    simp only [ctorLoop] at h
    injection h with _ h
    subst h
    exact hInv
  | e :: rest, s, s', u, hInv, h => by
    simp only [ctorLoop] at h
    cases hE : getE s e with
    | none =>
      rw [hE] at h
      simp at h
    | some el =>
      simp only [hE] at h
      cases hadd : add_channel_elem s g e (Int.ofNat el.index_in_channel_tensor) with
      | mk r s1 =>
        simp only [hadd] at h
        cases r with
        | error m => simp at h
        | ok u1 =>
          exact ctorLoop_inv rest s1 s' u (add_preserves hInv hadd).1 h

/-- A successful `ChannelTensor.__init__` starting from an invariant state
leaves an invariant state. -/
theorem channelTensorNew_inv {s : State} {n : Nat} {t : List Nat} {s' : State}
    (hInv : InvM s) (h : channelTensorNew s n = (.ok t, s')) : InvM s' := by
  unfold channelTensorNew at h
  cases hrun : ctorLoop s.groups.length
      { elems := s.elems ++ (List.range n).map
                   (fun i => { index_in_channel_tensor := i, group := none, index_in_group := -1 }),
        groups := s.groups ++ [⟨([] : Dict)⟩] }
      ((List.range n).map (fun i => s.elems.length + i)) with
  | mk r s2 =>
    simp only [hrun] at h
    cases r with
    | error m => simp at h
    | ok u =>
      injection h with h1 h2
      subst h2
      exact ctorLoop_inv _ _ _ u (ctor_base_inv n hInv) hrun

/-- The empty arena trivially satisfies the invariant. -/
theorem emptyState_inv : InvM emptyState := by
  refine ⟨?_, ?_, ?_⟩
  · intro gr hmem
    simp [emptyState] at hmem
  · intro e
    rfl
  · intro e g k hbk
    simp [elemBackref, getE, emptyState] at hbk

/-- C1 (amended): for every sequence of the public operations
`add_channel_elem`, `remove_from_group`, `union_two_groups` and
`split_group` starting from a freshly constructed `ChannelTensor`, at every
point between successfully returning top-level calls every owned
`ChannelElement` is contained in exactly one bucket of exactly one group,
namely the bucket that its `(group, index_in_group)` back-reference names,
and every unowned element is contained in no bucket.  (The original C1
additionally demanded that each element always be owned and that the bucket
keys of every live group form a contiguous range `0..N-1`; both parts fail,
see the counterexample theorem.) -/
theorem c1_amended_unique_membership (n : Nat) (t : List Nat) (s0 s' : State)
    (ops : List Op)
    (h0 : channelTensorNew emptyState n = (.ok t, s0))
    (h1 : runOps s0 ops = some s') :
    c1AmendedB s' = true :=
  inv_c1Amended
    (runOps_inv ops s0 s' (channelTensorNew_inv emptyState_inv h0) h1)

/-- Witness for the amended C1 at a fresh length-2 tensor followed by a
self-union, a removal and a re-add at the non-contiguous key 5. -/
theorem c1_amended_unique_membership_witness :
    c1AmendedB ((runOps stLen2
      [Op.unionTwo 0 0, Op.removeElem 1, Op.addElem 0 1 5]).getD
        emptyState) = true :=
  c1_amended_unique_membership 2 [0, 1] stLen2 _
    [Op.unionTwo 0 0, Op.removeElem 1, Op.addElem 0 1 5]
    (by decide) (by decide)

/-- C8: `add_channel_elem(element, key)` on a group raises the assertion of
`_add_channel_info` whenever the element already belongs to that same group,
leaving the state untouched; and when the element belongs to a different
group `g0 ≠ g`, the call succeeds, after it the element's back-reference
names `(g, key)`, the element is present in bucket `key` of `g`, occurs in
exactly one bucket overall, and is absent from every bucket of `g0`. -/
theorem c8_add_channel_elem_semantics
    (s : State) (g g0 e : Nat) (k : Int) (el : ChannelElement)
    (hInv : InvM s) (hE : getE s e = some el) :
    (el.group = some g →
      add_channel_elem s g e k =
        (.error "AssertionError: channel_elem.group is not self", s)) ∧
    (∀ gr, getG s g = some gr → el.group = some g0 → g0 ≠ g →
      ∃ s', add_channel_elem s g e k = (.ok (), s') ∧
        elemBackref s' e = some (g, k) ∧
        memBucketB s' g k e = true ∧
        occCount s' e = 1 ∧
        (∀ k2, memBucketB s' g0 k2 e = false)) := by
  constructor
  · intro hgrp
    have hbr : elemBackref s e = some (g, el.index_in_group) := by
      simp [elemBackref, hE, hgrp]
    obtain ⟨hglt, _⟩ := inv_home hInv hbr
    obtain ⟨gr, hgr⟩ := lt_getG hglt
    simp only [add_channel_elem, hE, hgr, if_pos hgrp]
  · intro gr hG hgrp hne
    have hnegrp : el.group ≠ some g := by
      rw [hgrp]
      intro hh
      injection hh with hh
      exact hne hh
    obtain ⟨s', hrun, hlen, hglen, hE', hEx, hm, hmemf, hbkt, hbktne, hGfr,
      hold, hkg, hkne, hocc, hInv'⟩ := add_effect k hInv hE hG hnegrp
    refine ⟨s', hrun, ?_, hm, ?_, ?_⟩
    · simp [elemBackref, hE']
    · rw [hocc e]
      simp
    · intro k2
      cases hmb : memBucketB s' g0 k2 e with
      | false => rfl
      | true =>
        exfalso
        obtain ⟨b, hb, heb⟩ := memBucketB_iff.mp hmb
        have hbr' := mem_backref hInv' hb heb
        have hbr2 : elemBackref s' e = some (g, k) := by
          simp [elemBackref, hE']
        rw [hbr2] at hbr'
        injection hbr' with hbr'
        have : g = g0 := congrArg Prod.fst hbr'
        exact hne this.symm

/-- Witness for C8 at the two-tensor state: element 3 owns `(group 1, 0)`;
re-adding it to group 1 raises with the state unchanged, while adding it to
group 0 at key 5 relocates it there and empties it out of group 1. -/
theorem c8_add_channel_elem_semantics_witness :
    add_channel_elem stTwoLen3 1 3 5 =
      (.error "AssertionError: channel_elem.group is not self", stTwoLen3) ∧
    elemBackref (add_channel_elem stTwoLen3 0 3 5).2 3 = some (0, 5) ∧
    memBucketB (add_channel_elem stTwoLen3 0 3 5).2 0 5 3 = true ∧
    occCount (add_channel_elem stTwoLen3 0 3 5).2 3 = 1 ∧
    memBucketB (add_channel_elem stTwoLen3 0 3 5).2 1 0 3 = false := by
  have h1 := (c8_add_channel_elem_semantics stTwoLen3 1 0 3 5
    { index_in_channel_tensor := 0, group := some 1, index_in_group := 0 }
    (invM_of_check (by decide)) (by decide)).1 (by decide)
  obtain ⟨s', hrun, hbr, hm, hocc, habs⟩ :=
    (c8_add_channel_elem_semantics stTwoLen3 0 1 3 5
      { index_in_channel_tensor := 0, group := some 1, index_in_group := 0 }
      (invM_of_check (by decide)) (by decide)).2
      ⟨[(0, [0]), (1, [1]), (2, [2])]⟩ (by decide) (by decide) (by decide)
  rw [hrun]
  exact ⟨h1, hbr, hm, hocc, habs 0⟩

/-- C3: `union` on two freshly constructed, independent length-3 tensors
(elements `[0,1,2]` and `[3,4,5]`) succeeds and couples exactly the
positionally matching channels: afterwards there are 3 nonempty equivalence
classes, the bucket holding `self[i]` is exactly `[self[i], other[i]]`, and
every element's back-reference points at its positional bucket of the
surviving group, so no element of any other position joins that bucket. -/
theorem c3_union_couples_positionwise :
    resC3.1 = .ok () ∧
    classCount resC3.2 = 3 ∧
    bucketAt resC3.2 0 0 = some [0, 3] ∧
    bucketAt resC3.2 0 1 = some [1, 4] ∧
    bucketAt resC3.2 0 2 = some [2, 5] ∧
    elemBackref resC3.2 0 = some (0, 0) ∧
    elemBackref resC3.2 1 = some (0, 1) ∧
    elemBackref resC3.2 2 = some (0, 2) ∧
    elemBackref resC3.2 3 = some (0, 0) ∧
    elemBackref resC3.2 4 = some (0, 1) ∧
    elemBackref resC3.2 5 = some (0, 2) := by
  decide

/-! ### Constructor and expand: full effect lemmas -/

/-- The constructor loop adds each listed unowned element to group `g` under
its own tensor index, touching nothing else. -/
theorem ctorLoop_effect {g : Nat} :
    ∀ (es : List Nat) (s : State), InvM s → g < s.groups.length →
    (∀ e ∈ es, ∃ el, getE s e = some el ∧ el.group = none) →
    es.Nodup →
    ∃ s', ctorLoop g s es = (.ok (), s') ∧ InvM s' ∧
      s'.elems.length = s.elems.length ∧
      s'.groups.length = s.groups.length ∧
      (∀ x, x ∉ es → getE s' x = getE s x) ∧
      (∀ e ∈ es, ∀ el, getE s e = some el →
        getE s' e = some { el with group := some g, index_in_group := Int.ofNat el.index_in_channel_tensor })
  | [], s, hInv, _, _, _ => ⟨s, rfl, hInv, rfl, rfl, fun _ _ => rfl, by simp⟩
  | e :: rest, s, hInv, hglt, hun, hnd => by
    obtain ⟨el, hE, hgrp⟩ := hun e (List.mem_cons_self e rest)
    obtain ⟨gr, hgr⟩ := lt_getG hglt
    have hne : el.group ≠ some g := by rw [hgrp]; simp
    obtain ⟨s1, hrun1, hlen1, hglen1, hE1, hEx1, hm1, hmemf1, hbkt1, hbktne1,
      hGfr1, hold1, hkg1, hkne1, hocc1, hInv1⟩ :=
      add_effect (Int.ofNat el.index_in_channel_tensor) hInv hE hgr hne
    have hnotin : e ∉ rest := (List.nodup_cons.mp hnd).1
    have hrest : ∀ e' ∈ rest, ∃ el', getE s1 e' = some el' ∧ el'.group = none := by
      intro e' he'
      obtain ⟨el', hE', hgrp'⟩ := hun e' (List.mem_cons_of_mem e he')
      refine ⟨el', ?_, hgrp'⟩
      rw [hEx1 e' (fun hh => hnotin (hh ▸ he'))]
      exact hE'
    obtain ⟨s2, hrun2, hInv2, hlen2, hglen2, hEx2, hreg2⟩ :=
      ctorLoop_effect rest s1 hInv1 (by rw [hglen1]; exact hglt) hrest
        (List.nodup_cons.mp hnd).2
    refine ⟨s2, ?_, hInv2, by rw [hlen2, hlen1], by rw [hglen2, hglen1], ?_, ?_⟩
    · simp only [ctorLoop, hE, hrun1, hrun2]
    · intro x hx
      have hx1 : x ≠ e := fun hh => hx (hh ▸ List.mem_cons_self e rest)
      have hx2 : x ∉ rest := fun hh => hx (List.mem_cons_of_mem e hh)
      rw [hEx2 x hx2, hEx1 x hx1]
    · intro e' he' el' hE'
      rcases List.mem_cons.mp he' with hh | hh
      · subst hh
        rw [hE] at hE'
        injection hE' with hE'
        subst hE'
        rw [hEx2 e' hnotin]
        exact hE1
      · have he'ne : e' ≠ e := fun hh2 => hnotin (hh2 ▸ hh)
        refine hreg2 e' hh el' ?_
        rw [hEx1 e' he'ne]
        exact hE'

/-- Source `ChannelTensor.__init__` in full: from an invariant state it
succeeds, returns the `n` fresh element ids, leaves every old element
untouched and registers fresh element `base + m` in the fresh group
(`s.groups.length`) under bucket key `m`. -/
theorem channelTensorNew_effect {s : State} (n : Nat) (hInv : InvM s) :
    ∃ s', channelTensorNew s n =
        (.ok ((List.range n).map (fun i => s.elems.length + i)), s') ∧
      InvM s' ∧
      s'.elems.length = s.elems.length + n ∧
      s'.groups.length = s.groups.length + 1 ∧
      (∀ x, x < s.elems.length → getE s' x = getE s x) ∧
      (∀ m, m < n → getE s' (s.elems.length + m) =
        some { index_in_channel_tensor := m, group := some s.groups.length, index_in_group := Int.ofNat m }) := by
  have hInvB := ctor_base_inv n hInv
  set sB : State := { elems := s.elems ++ (List.range n).map
                        (fun i => { index_in_channel_tensor := i, group := none, index_in_group := -1 }),
                      groups := s.groups ++ [⟨([] : Dict)⟩] } with hsB
  have hlenB : sB.elems.length = s.elems.length + n := by
    rw [hsB]
    simp
  have hglenB : sB.groups.length = s.groups.length + 1 := by
    rw [hsB]
    simp
  have hEB_old : ∀ x, x < s.elems.length → getE sB x = getE s x := by
    intro x hx
    unfold getE
    rw [hsB]
    exact List.getElem?_append_left hx
  have hEB_new : ∀ m, m < n → getE sB (s.elems.length + m) =
      some { index_in_channel_tensor := m, group := none, index_in_group := -1 } := by
    intro m hm
    unfold getE
    rw [hsB]
    rw [List.getElem?_append_right (Nat.le_add_right _ _), List.getElem?_map,
      Nat.add_sub_cancel_left]
    rw [List.getElem?_range hm]
    rfl
  have hun : ∀ e ∈ (List.range n).map (fun i => s.elems.length + i),
      ∃ el, getE sB e = some el ∧ el.group = none := by
    intro e he
    obtain ⟨m, hm, hme⟩ := List.mem_map.mp he
    rw [← hme]
    exact ⟨_, hEB_new m (List.mem_range.mp hm), rfl⟩
  have hnd : ((List.range n).map (fun i => s.elems.length + i)).Nodup := by
    refine List.Nodup.map ?_ (List.nodup_range n)
    intro a b hab
    simp only at hab
    omega
  obtain ⟨s2, hrun2, hInv2, hlen2, hglen2, hEx2, hreg2⟩ :=
    @ctorLoop_effect s.groups.length
      ((List.range n).map (fun i => s.elems.length + i)) sB hInvB
      (by rw [hglenB]; omega) hun hnd
  refine ⟨s2, ?_, hInv2, by rw [hlen2, hlenB], by rw [hglen2, hglenB], ?_, ?_⟩
  · simp only [channelTensorNew, hsB] at hrun2 ⊢
    rw [hrun2]
  · intro x hx
    have hxni : x ∉ (List.range n).map (fun i => s.elems.length + i) := by
      intro hmem
      obtain ⟨m, _, hme⟩ := List.mem_map.mp hmem
      omega
    rw [hEx2 x hxni, hEB_old x hx]
  · intro m hm
    have hmem : s.elems.length + m ∈ (List.range n).map (fun i => s.elems.length + i) :=
      List.mem_map.mpr ⟨m, List.mem_range.mpr hm, rfl⟩
    have := hreg2 (s.elems.length + m) hmem _ (hEB_new m hm)
    exact this

/-- Inner loop of `expand`: adding the fresh elements `base + (i*ratio + j)`
(`j` over `js`, all still owned by the fresh group `gf`) into the bucket of
the source element `src` succeeds, registers each of them at
`(g, el.index_in_group)`, and touches nothing else. -/
theorem expandJ_effect {newT : List Nat} {g gf src base : Nat} {ratio : Nat}
    {el : ChannelElement} (i : Nat) (hgf : g ≠ gf) (hsrclt : src < base)
    (hNT : ∀ m, m < newT.length → newT[m]? = some (base + m)) :
    ∀ (js : List Nat) (s : State), InvM s →
    getE s src = some el → el.group = some g →
    (∀ j ∈ js, i * ratio + j < newT.length) →
    (∀ j ∈ js, ∃ elx, getE s (base + (i * ratio + j)) = some elx ∧
      elx.group = some gf) →
    js.Nodup →
    ∃ s', expandJ newT g src i ratio s js = (.ok (), s') ∧ InvM s' ∧
      s'.elems.length = s.elems.length ∧
      s'.groups.length = s.groups.length ∧
      (∀ x, (∀ j ∈ js, x ≠ base + (i * ratio + j)) →
        getE s' x = getE s x ∧
        ∀ g2 k2, memBucketB s' g2 k2 x = memBucketB s g2 k2 x) ∧
      (∀ j ∈ js, elemBackref s' (base + (i * ratio + j)) =
          some (g, el.index_in_group) ∧
        memBucketB s' g el.index_in_group (base + (i * ratio + j)) = true)
  | [], s, hInv, _, _, _, _, _ =>
    ⟨s, rfl, hInv, rfl, rfl, fun _ _ => ⟨rfl, fun _ _ => rfl⟩, by simp⟩
  | j :: rest, s, hInv, hsrcE, hsrcg, hbound, hfresh, hnd => by
    obtain ⟨elx, hExx, hgx⟩ := hfresh j (List.mem_cons_self j rest)
    have hjlt := hbound j (List.mem_cons_self j rest)
    have hNTj : newT[i * ratio + j]? = some (base + (i * ratio + j)) := hNT _ hjlt
    have hbrsrc : elemBackref s src = some (g, el.index_in_group) := by
      simp [elemBackref, hsrcE, hsrcg]
    obtain ⟨hglt, _⟩ := inv_home hInv hbrsrc
    obtain ⟨gr, hgr⟩ := lt_getG hglt
    have hnex : elx.group ≠ some g := by
      rw [hgx]
      intro hh
      injection hh with hh
      exact hgf hh.symm
    obtain ⟨s1, hrun1, hlen1, hglen1, hE1, hEx1, hm1, hmemf1, hbkt1, hbktne1,
      hGfr1, hold1, hkg1, hkne1, hocc1, hInv1⟩ :=
      add_effect el.index_in_group hInv hExx hgr hnex
    have hsrcne : src ≠ base + (i * ratio + j) := by omega
    have hsrcE1 : getE s1 src = some el := by
      rw [hEx1 _ hsrcne]
      exact hsrcE
    have hndc := List.nodup_cons.mp hnd
    have hfresh1 : ∀ j' ∈ rest, ∃ elx', getE s1 (base + (i * ratio + j')) =
        some elx' ∧ elx'.group = some gf := by
      intro j' hj'
      have hjj : j' ≠ j := fun hh => hndc.1 (hh ▸ hj')
      obtain ⟨elx', hE', hg'⟩ := hfresh j' (List.mem_cons_of_mem j hj')
      refine ⟨elx', ?_, hg'⟩
      rw [hEx1 _ (by omega)]
      exact hE'
    obtain ⟨s2, hrun2, hInv2, hlen2, hglen2, hfr2, hdone2⟩ :=
      expandJ_effect i hgf hsrclt hNT rest s1 hInv1 hsrcE1 hsrcg
        (fun j' hj' => hbound j' (List.mem_cons_of_mem j hj')) hfresh1 hndc.2
    refine ⟨s2, ?_, hInv2, by rw [hlen2, hlen1], by rw [hglen2, hglen1], ?_, ?_⟩
    · simp only [expandJ, hNTj, hsrcE, hrun1, hrun2]
    · intro x hx
      have hx1 : x ≠ base + (i * ratio + j) := hx j (List.mem_cons_self j rest)
      obtain ⟨ha, hb⟩ := hfr2 x (fun j' hj' => hx j' (List.mem_cons_of_mem j hj'))
      refine ⟨by rw [ha, hEx1 x hx1], fun g2 k2 => ?_⟩
      rw [hb g2 k2, hmemf1 x hx1 g2 k2]
    · intro j' hj'
      rcases List.mem_cons.mp hj' with hh | hh
      · subst hh
        have hxne : ∀ j2 ∈ rest, base + (i * ratio + j') ≠ base + (i * ratio + j2) := by
          intro j2 hj2
          have hne2 : j2 ≠ j' := fun hh2 => hndc.1 (hh2 ▸ hj2)
          omega
        obtain ⟨ha, hb⟩ := hfr2 _ hxne
        constructor
        · rw [elemBackref_congr ha]
          simp [elemBackref, hE1]
        · rw [hb g el.index_in_group]
          exact hm1
      · exact hdone2 j' hh

/-- Outer loop of `expand`: walking the original elements `chs` from block
counter `i`, each block of `ratio` fresh elements lands in the bucket of its
source element; fresh elements outside the remaining range and all old
elements are untouched. -/
theorem expandILoop_effect {newT : List Nat} {ratio gf base : Nat}
    (hNT : ∀ m, m < newT.length → newT[m]? = some (base + m)) :
    ∀ (chs : List Nat) (i : Nat) (s : State), InvM s →
    (∀ ch ∈ chs, ch < base) →
    ((i + chs.length) * ratio ≤ newT.length) →
    (∀ ch ∈ chs, ∃ el g, getE s ch = some el ∧ el.group = some g ∧ g ≠ gf) →
    (∀ m, i * ratio ≤ m → m < newT.length →
      ∃ elx, getE s (base + m) = some elx ∧ elx.group = some gf) →
    ∃ s', expandILoop newT ratio s chs i = (.ok (), s') ∧ InvM s' ∧
      (∀ x, (∀ m, i * ratio ≤ m → m < newT.length → x ≠ base + m) →
        getE s' x = getE s x ∧
        ∀ g2 k2, memBucketB s' g2 k2 x = memBucketB s g2 k2 x) ∧
      (∀ p ch, chs[p]? = some ch → ∀ el g, getE s ch = some el →
        el.group = some g → ∀ j, j < ratio →
          elemBackref s' (base + ((i + p) * ratio + j)) =
            some (g, el.index_in_group) ∧
          memBucketB s' g el.index_in_group (base + ((i + p) * ratio + j)) = true)
  | [], _, s, hInv, _, _, _, _ =>
    ⟨s, rfl, hInv, fun _ _ => ⟨rfl, fun _ _ => rfl⟩, by simp⟩
  | ch :: rest, i, s, hInv, hchlt, hbound, hsrc, hfreshcur => by
    obtain ⟨el, g, hE, hgrp, hggf⟩ := hsrc ch (List.mem_cons_self ch rest)
    have hsm : (i + 1) * ratio = i * ratio + ratio := Nat.succ_mul i ratio
    have hsucc : (i + 1) * ratio ≤ newT.length := by
      calc (i + 1) * ratio ≤ (i + (rest.length + 1)) * ratio :=
            Nat.mul_le_mul_right ratio (by omega)
        _ = (i + (ch :: rest).length) * ratio := by simp
        _ ≤ newT.length := hbound
    have hboundJ : ∀ j ∈ List.range ratio, i * ratio + j < newT.length := by
      intro j hj
      have hjr := List.mem_range.mp hj
      omega
    have hfreshJ : ∀ j ∈ List.range ratio,
        ∃ elx, getE s (base + (i * ratio + j)) = some elx ∧
          elx.group = some gf := by
      intro j hj
      have hjr := List.mem_range.mp hj
      exact hfreshcur (i * ratio + j) (by omega) (by omega)
    obtain ⟨s1, hrun1, hInv1, hlen1, hglen1, hfr1, hdone1⟩ :=
      expandJ_effect i hggf (hchlt ch (List.mem_cons_self ch rest)) hNT
        (List.range ratio) s hInv hE hgrp hboundJ hfreshJ (List.nodup_range ratio)
    have hfr1' : ∀ x, (∀ m, i * ratio ≤ m → m < i * ratio + ratio →
        x ≠ base + m) → getE s1 x = getE s x ∧
        ∀ g2 k2, memBucketB s1 g2 k2 x = memBucketB s g2 k2 x := by
      intro x hx
      refine hfr1 x ?_
      intro j hj
      have hjr := List.mem_range.mp hj
      exact hx (i * ratio + j) (by omega) (by omega)
    have hsrc1 : ∀ ch' ∈ rest, ∃ el' g', getE s1 ch' = some el' ∧
        el'.group = some g' ∧ g' ≠ gf := by
      intro ch' hch'
      obtain ⟨el', g', hE', hg', hne'⟩ := hsrc ch' (List.mem_cons_of_mem ch hch')
      have hlt' := hchlt ch' (List.mem_cons_of_mem ch hch')
      obtain ⟨ha, _⟩ := hfr1' ch' (fun m _ _ => by omega)
      exact ⟨el', g', by rw [ha]; exact hE', hg', hne'⟩
    have hfresh1 : ∀ m, (i + 1) * ratio ≤ m → m < newT.length →
        ∃ elx, getE s1 (base + m) = some elx ∧ elx.group = some gf := by
      intro m hm1 hm2
      obtain ⟨elx, hExx, hgx⟩ := hfreshcur m (by omega) hm2
      obtain ⟨ha, _⟩ := hfr1' (base + m) (fun m' hma hmb => by omega)
      exact ⟨elx, by rw [ha]; exact hExx, hgx⟩
    obtain ⟨s2, hrun2, hInv2, hfr2, hdone2⟩ :=
      expandILoop_effect hNT rest (i + 1) s1 hInv1
        (fun ch' hch' => hchlt ch' (List.mem_cons_of_mem ch hch'))
        (by
          calc (i + 1 + rest.length) * ratio
              = (i + (ch :: rest).length) * ratio := by
                congr 1
                simp
                omega
            _ ≤ newT.length := hbound)
        hsrc1 hfresh1
    refine ⟨s2, ?_, hInv2, ?_, ?_⟩
    · simp only [expandILoop, hE, hgrp, hrun1, hrun2]
    · intro x hx
      obtain ⟨hb2a, hb2b⟩ := hfr2 x (fun m hma hmb => hx m (by omega) hmb)
      obtain ⟨hb1a, hb1b⟩ := hfr1' x (fun m hma hmb => hx m hma (by omega))
      exact ⟨by rw [hb2a, hb1a], fun g2 k2 => by rw [hb2b g2 k2, hb1b g2 k2]⟩
    · intro p ch' hp el' g' hE' hg' j hj
      cases p with
      | zero =>
        have hch' : ch' = ch := by
          simp at hp
          exact hp.symm
        subst hch'
        rw [hE] at hE'
        injection hE' with hE'
        subst hE'
        rw [hgrp] at hg'
        injection hg' with hg'
        subst hg'
        obtain ⟨hda, hdb⟩ := hdone1 j (List.mem_range.mpr hj)
        obtain ⟨hfa, hfb⟩ := hfr2 (base + (i * ratio + j))
          (fun m hma hmb => by omega)
        constructor
        · rw [show (i + 0) * ratio + j = i * ratio + j by rw [Nat.add_zero]]
          rw [elemBackref_congr hfa]
          exact hda
        · rw [show (i + 0) * ratio + j = i * ratio + j by rw [Nat.add_zero]]
          rw [hfb _ _]
          exact hdb
      | succ p' =>
        have hp' : rest[p']? = some ch' := by
          simpa using hp
        have hlt' : ch' < base := hchlt ch' (List.mem_cons_of_mem ch
          (List.getElem?_mem hp'))
        have hE1' : getE s1 ch' = some el' := by
          obtain ⟨ha, _⟩ := hfr1' ch' (fun m _ _ => by omega)
          rw [ha]
          exact hE'
        have := hdone2 p' ch' hp' el' g' hE1' hg' j hj
        rw [show (i + 1 + p') * ratio + j = (i + (p' + 1)) * ratio + j by
          congr 2
          omega] at this
        exact this

/-- C4: for a `ChannelTensor` whose elements are all owned by some group and
any ratio `r ≥ 1`, `expand(r)` succeeds, returns a new tensor of length
`len(T) * r`, and for each original position `p` whose element is owned by
group `g` under bucket key `k`, the `r` new elements at positions `p*r`
through `p*r + r - 1` all end up in bucket `k` of group `g` (their
back-references name `(g, k)` and they are members of that bucket). -/
theorem c4_expand_blocks (s : State) (t : List Nat) (r : Nat)
    (hInv : InvM s) (_hr : 1 ≤ r)
    (howned : ∀ ch ∈ t, ∃ el, getE s ch = some el ∧ el.group.isSome) :
    ∃ newT s', expand s t r = (.ok newT, s') ∧
      newT.length = t.length * r ∧
      (∀ p ch, t[p]? = some ch → ∀ el g, getE s ch = some el →
        el.group = some g → ∀ j, j < r → ∀ ex, newT[p * r + j]? = some ex →
          elemBackref s' ex = some (g, el.index_in_group) ∧
          memBucketB s' g el.index_in_group ex = true) := by
  obtain ⟨s1, hrunC, hInv1, hlen1, hglen1, hEfr1, hreg1⟩ :=
    channelTensorNew_effect (t.length * r) hInv
  have hNTlen : ((List.range (t.length * r)).map
      (fun i => s.elems.length + i)).length = t.length * r := by
    simp
  have hNT : ∀ m, m < ((List.range (t.length * r)).map
      (fun i => s.elems.length + i)).length →
      ((List.range (t.length * r)).map (fun i => s.elems.length + i))[m]? =
        some (s.elems.length + m) := by
    intro m hm
    rw [hNTlen] at hm
    rw [List.getElem?_map, List.getElem?_range hm]
    rfl
  have hchlt : ∀ ch ∈ t, ch < s.elems.length := by
    intro ch hch
    obtain ⟨el, hE, _⟩ := howned ch hch
    exact getE_some_lt hE
  have hsrc1 : ∀ ch ∈ t, ∃ el g, getE s1 ch = some el ∧
      el.group = some g ∧ g ≠ s.groups.length := by
    intro ch hch
    obtain ⟨el, hE, hiso⟩ := howned ch hch
    obtain ⟨g, hg⟩ := Option.isSome_iff_exists.mp hiso
    have hbr : elemBackref s ch = some (g, el.index_in_group) := by
      simp [elemBackref, hE, hg]
    obtain ⟨hglt, _⟩ := inv_home hInv hbr
    refine ⟨el, g, ?_, hg, by omega⟩
    rw [hEfr1 ch (hchlt ch hch)]
    exact hE
  have hfresh1 : ∀ m, 0 * r ≤ m → m < ((List.range (t.length * r)).map
      (fun i => s.elems.length + i)).length →
      ∃ elx, getE s1 (s.elems.length + m) = some elx ∧
        elx.group = some s.groups.length := by
    intro m _ hm
    rw [hNTlen] at hm
    exact ⟨_, hreg1 m hm, rfl⟩
  obtain ⟨s2, hrunI, hInv2, hfr2, hdone2⟩ :=
    expandILoop_effect hNT t 0 s1 hInv1 hchlt
      (by rw [hNTlen, Nat.zero_add]) hsrc1 hfresh1
  refine ⟨(List.range (t.length * r)).map (fun i => s.elems.length + i),
    s2, ?_, hNTlen, ?_⟩
  · simp only [expand, hrunC, hrunI]
  · intro p ch hp el g hE hg j hj ex hex
    have hch : ch ∈ t := List.getElem?_mem hp
    have hplt : p < t.length := by
      by_contra hcon
      rw [List.getElem?_eq_none (by omega)] at hp
      exact Option.noConfusion hp
    have hidx : p * r + j < t.length * r := by
      calc p * r + j < (p + 1) * r := by
            rw [Nat.succ_mul]
            omega
        _ ≤ t.length * r := Nat.mul_le_mul_right r (by omega)
    have hex' : ex = s.elems.length + (p * r + j) := by
      rw [hNT (p * r + j) (by rw [hNTlen]; exact hidx)] at hex
      exact (Option.some.inj hex).symm
    have hE1 : getE s1 ch = some el := by
      rw [hEfr1 ch (hchlt ch hch)]
      exact hE
    have := hdone2 p ch hp el g hE1 hg j hj
    rw [show (0 + p) * r + j = p * r + j by rw [Nat.zero_add]] at this
    rw [hex']
    exact this

/-- Witness for C4: expanding the fresh length-2 tensor (elements 0 at
bucket 0 and 1 at bucket 1 of group 0) by ratio 2 yields the new tensor
`[2, 3, 4, 5]` whose pairs land in buckets 0 and 1 of group 0. -/
theorem c4_expand_blocks_witness :
    (expand stLen2 [0, 1] 2).1 = .ok [2, 3, 4, 5] ∧
    elemBackref (expand stLen2 [0, 1] 2).2 2 = some (0, 0) ∧
    elemBackref (expand stLen2 [0, 1] 2).2 3 = some (0, 0) ∧
    elemBackref (expand stLen2 [0, 1] 2).2 4 = some (0, 1) ∧
    elemBackref (expand stLen2 [0, 1] 2).2 5 = some (0, 1) ∧
    memBucketB (expand stLen2 [0, 1] 2).2 0 0 2 = true ∧
    memBucketB (expand stLen2 [0, 1] 2).2 0 1 5 = true := by
  obtain ⟨newT, s', hrun, hlen, hdone⟩ :=
    c4_expand_blocks stLen2 [0, 1] 2 (invM_of_check (by decide)) (by decide)
      (by
        intro ch hch
        rcases List.mem_cons.mp hch with hh | hh
        · subst hh
          exact ⟨{ index_in_channel_tensor := 0, group := some 0, index_in_group := 0 },
            by decide, by decide⟩
        · rcases List.mem_cons.mp hh with hh2 | hh2
          · subst hh2
            exact ⟨{ index_in_channel_tensor := 1, group := some 0, index_in_group := 1 },
              by decide, by decide⟩
          · exact absurd hh2 (List.not_mem_nil ch))
  have e1 : (expand stLen2 [0, 1] 2).1 = .ok newT := by rw [hrun]
  have e2 : (expand stLen2 [0, 1] 2).1 = .ok [2, 3, 4, 5] := by decide
  rw [e1] at e2
  injection e2 with e2
  subst e2
  have h20 := hdone 0 0 (by decide)
    { index_in_channel_tensor := 0, group := some 0, index_in_group := 0 } 0
    (by decide) (by decide) 0 (by decide) 2 (by decide)
  have h21 := hdone 0 0 (by decide)
    { index_in_channel_tensor := 0, group := some 0, index_in_group := 0 } 0
    (by decide) (by decide) 1 (by decide) 3 (by decide)
  have h22 := hdone 1 1 (by decide)
    { index_in_channel_tensor := 1, group := some 0, index_in_group := 1 } 0
    (by decide) (by decide) 0 (by decide) 4 (by decide)
  have h23 := hdone 1 1 (by decide)
    { index_in_channel_tensor := 1, group := some 0, index_in_group := 1 } 0
    (by decide) (by decide) 1 (by decide) 5 (by decide)
  rw [hrun]
  exact ⟨rfl, h20.1, h21.1, h22.1, h23.1, h20.2, h23.2⟩

/-- C2 (amended): `align_tensors` raises the equal-length assertion,
leaving the state untouched, whenever any participating tensor's length
differs from the first tensor's; and in the spec's concrete instance —
tensor A of length 4 with boundaries `[(0,2),(2,4)]` and tensor B of length
4 with boundaries `[(0,1),(1,4)]` — aligning A and B succeeds and yields
the boundaries `[(0,1),(1,2),(2,4)]` on both.  (The original claim's
general termination-with-identical-decompositions part is refuted by the
counterexample theorem: equal lengths are not sufficient.) -/
theorem c2_amended_align_tensors
    : (∀ (s : State) (t0 t1 : List Nat) (rest : List (List Nat)),
        (t1 :: rest).any (fun t => t.length != t0.length) = true →
        align_tensors s (t0 :: t1 :: rest) =
          (.error "AssertionError: tensor lengths differ", s)) ∧
      (groupDict stC2b tensorC2a).map (List.map Prod.fst) =
        .ok [(0, 2), (2, 4)] ∧
      (groupDict stC2b tensorC2b).map (List.map Prod.fst) =
        .ok [(0, 1), (1, 4)] ∧
      (align_tensors stC2b [tensorC2a, tensorC2b]).1 = .ok () ∧
      (groupDict (align_tensors stC2b [tensorC2a, tensorC2b]).2 tensorC2a).map
        (List.map Prod.fst) = .ok [(0, 1), (1, 2), (2, 4)] ∧
      (groupDict (align_tensors stC2b [tensorC2a, tensorC2b]).2 tensorC2b).map
        (List.map Prod.fst) = .ok [(0, 1), (1, 2), (2, 4)] := by
  refine ⟨?_, by decide, by decide, by decide, by decide, by decide⟩
  intro s t0 t1 rest hlen
  simp only [align_tensors, if_pos hlen]

/-- Witness for the amended C2: aligning a length-1 with a length-2 tensor
raises the equal-length assertion and leaves the state unchanged. -/
theorem c2_amended_align_tensors_witness :
    align_tensors emptyState [[0], [0, 1]] =
      (.error "AssertionError: tensor lengths differ", emptyState) :=
  c2_amended_align_tensors.1 emptyState [0] [0, 1] [] (by decide)

/-- The block starts emitted by the rest of the `group_dict` walk: the
running block's `start`, then one start per position at which `breakAtB`
fires against the immediately preceding element. -/
theorem groupDictLoop_starts {s : State} :
    ∀ (rest : List Nat) (i start : Nat) (prev : Nat) (elp : ChannelElement)
      (acc bs : List ((Nat × Nat) × Option Nat)),
    getE s prev = some elp →
    groupDictLoop s rest i start elp.group elp.index_in_group acc = .ok bs →
    bs.map (fun p => p.1.1) =
      acc.map (fun p => p.1.1) ++ start :: specStarts s prev i rest
  | [], i, start, prev, elp, acc, bs, _, h => by
    simp only [groupDictLoop] at h
    injection h with h
    subst h
    simp [specStarts]
  | e :: rest, i, start, prev, elp, acc, bs, hprev, h => by
    simp only [groupDictLoop] at h
    cases hE : getE s e with
    | none =>
      rw [hE] at h
      simp at h
    | some el =>
      simp only [hE] at h
      have hbk : breakAtB s prev e =
          decide (elp.group ≠ el.group ∨ el.index_in_group < elp.index_in_group) := by
        simp [breakAtB, hprev, hE]
      by_cases hc : elp.group ≠ el.group ∨ elp.index_in_group > el.index_in_group
      · rw [if_pos hc] at h
        have hrec := groupDictLoop_starts rest (i + 1) i e el
          (acc ++ [((start, i), elp.group)]) bs hE h
        have hbt : breakAtB s prev e = true := by
          rw [hbk]
          rcases hc with h1 | h2
          · exact decide_eq_true (Or.inl h1)
          · exact decide_eq_true (Or.inr h2)
        rw [hrec]
        simp [specStarts, hbt]
      · rw [if_neg hc] at h
        have hrec := groupDictLoop_starts rest (i + 1) start e el acc bs hE h
        have hbf : breakAtB s prev e = false := by
          rw [hbk]
          exact decide_eq_false hc
        rw [hrec]
        simp [specStarts, hbf]

/-- C7 (amended): in the boundary derivation of a `ChannelTensor`
(`group_dict`), a new contiguous block starts at position `i` exactly when
the group owning element `i` differs from the group owning element `i - 1`,
or the bucket index of element `i` is strictly *less than* that of element
`i - 1` (`current_group_idx > self[i].index_in_group` in the source): the
list of block start positions of a successful `group_dict` is `0` followed
by exactly the positions at which `breakAtB` (group differs, or index
strictly decreases) fires.  The original claim's "does not strictly
increase" (≤) boundary rule is refuted by the counterexample theorem. -/
theorem c7_amended_break_on_strict_decrease
    (s : State) (e0 : Nat) (rest : List Nat)
    (bs : List ((Nat × Nat) × Option Nat))
    (h : groupDict s (e0 :: rest) = .ok bs) :
    bs.map (fun p => p.1.1) = 0 :: specStarts s e0 1 rest := by
  simp only [groupDict] at h
  cases hE : getE s e0 with
  | none =>
    rw [hE] at h
    simp at h
  | some el0 =>
    simp only [hE] at h
    have := groupDictLoop_starts rest 1 0 e0 el0 [] bs hE h
    simpa using this

/-- Witness for the amended C7 at the shared-bucket state `stC7`: both
elements sit in bucket 0 of group 0, `breakAtB` does not fire (no strict
decrease), and `group_dict` indeed reports the single block start `0`. -/
theorem c7_amended_break_on_strict_decrease_witness :
    ([((0, 2), (some 0 : Option Nat))].map (fun p => p.1.1) =
      0 :: specStarts stC7 0 1 [1]) ∧
    specStarts stC7 0 1 [1] = [] :=
  ⟨c7_amended_break_on_strict_decrease stC7 0 [1] [((0, 2), some 0)]
    (by decide), by decide⟩
